import Mathlib

/-!
Verification of the Damerau-Levenshtein distance family of
`strsim_polars_plugin`.

The repository's visible source (`src/strsim_polars_plugin/distance.py`) is a
registration shim: each public function forwards two string columns (and, for
the geometric-weighted variant, a float ratio passed through unvalidated as a
kwarg) to a native plugin. The distance core itself is not part of the visible
source, so the definitions below are modelled from the specification of the
core (EditMatrix, Normalizer, PartialMatcher and the dispatch layer):
strings are sequences of Unicode scalar values (`Char`), the raw distance is
the unrestricted ("true") Damerau-Levenshtein distance computed with a
last-occurrence lookback, normalized scores are exact rationals, and the
geometric blend is a real-valued weighted geometric mean.
-/

namespace Strsim

/-- Modelled from the spec: the last-occurrence lookback of EditMatrix
(§4.1, the "da"/"db" tables). `lastPos1 xs c` is the 1-based position of the
last occurrence of `c` in `xs`, or `0` when `c` does not occur in `xs`. -/
def lastPos1 : List Char → Char → ℕ
  | [], _ => 0
  | x :: xs, c =>
    let r := lastPos1 xs c
    if r = 0 then (if x = c then 1 else 0) else r + 1

theorem lastPos1_le (xs : List Char) (c : Char) : lastPos1 xs c ≤ xs.length := by
  induction xs with
  | nil => simp [lastPos1]
  | cons x xs ih =>
    simp only [lastPos1, List.length_cons]
    split
    · split <;> omega
    · omega

/-- Modelled from the spec: the EditMatrix cell `d[i][j]` of §4.1 for the
unrestricted ("true") Damerau-Levenshtein distance, with an explicit fuel
argument so that the recursion is structural. `dmatF A B f i j` is the cell
value whenever `i + j ≤ f`; besides the base rows `d[0][j] = j` and
`d[i][0] = i`, a cell is the minimum of deletion, insertion, substitution and
of the unrestricted transposition option `d[k-1][l-1] + (i-k-1) + 1 + (j-l-1)`
where `k`, `l` are the last-occurrence positions of `B[j-1]` in `A[0..i-2]`
and of `A[i-1]` in `B[0..j-2]`. -/
def dmatF (A B : List Char) : ℕ → ℕ → ℕ → ℕ
  | _, 0, j => j
  | _, i + 1, 0 => i + 1
  | 0, _ + 1, _ + 1 => 0
  | f + 1, i + 1, j + 1 =>
    let a := A.getD i 'a'
    let b := B.getD j 'a'
    let cost : ℕ := if a = b then 0 else 1
    let base := min (dmatF A B f i (j + 1) + 1)
      (min (dmatF A B f (i + 1) j + 1) (dmatF A B f i j + cost))
    let k := lastPos1 (A.take i) b
    let l := lastPos1 (B.take j) a
    if 1 ≤ k ∧ 1 ≤ l then
      min base (dmatF A B f (k - 1) (l - 1) + (i - k) + 1 + (j - l))
    else base

/-- Modelled from the spec: the EditMatrix cell `d[i][j]` (§4.1), i.e. the
unrestricted Damerau-Levenshtein distance between `A.take i` and `B.take j`. -/
def dmat (A B : List Char) (i j : ℕ) : ℕ := dmatF A B (i + j) i j

/-- Modelled from the spec: `damerau_levenshtein` on the underlying
sequences of Unicode scalar values, the value `d[m][n]` of EditMatrix. -/
def dlist (A B : List Char) : ℕ := dmat A B A.length B.length

/-- Modelled from the spec: the `damerau_levenshtein` entry point (§4.4). -/
def damerau_levenshtein (A B : String) : ℕ := dlist A.data B.data

theorem dmatF_zero_left (A B : List Char) (f j : ℕ) : dmatF A B f 0 j = j := by
  cases f <;> rfl

theorem dmatF_zero_right (A B : List Char) (f i : ℕ) :
    dmatF A B f (i + 1) 0 = i + 1 := by
  cases f <;> rfl

/-- Fuel does not matter as long as it is at least `i + j`. -/
theorem dmatF_fuel (A B : List Char) :
    ∀ f g i j, i + j ≤ f → i + j ≤ g → dmatF A B f i j = dmatF A B g i j := by
  intro f
  induction f with
  | zero =>
    intro g i j hf _
    have hi : i = 0 ∧ j = 0 := by omega
    rcases hi with ⟨rfl, rfl⟩
    rw [dmatF_zero_left, dmatF_zero_left]
  | succ f ih =>
    intro g i j hf hg
    match i, j with
    | 0, j => rw [dmatF_zero_left, dmatF_zero_left]
    | i + 1, 0 => rw [dmatF_zero_right, dmatF_zero_right]
    | i + 1, j + 1 =>
      match g with
      | 0 => omega
      | g + 1 =>
        show dmatF A B (f + 1) (i + 1) (j + 1) = dmatF A B (g + 1) (i + 1) (j + 1)
        have hk := lastPos1_le (A.take i) (B.getD j 'a')
        have hk' : lastPos1 (A.take i) (B.getD j 'a') ≤ i := by
          refine le_trans hk ?_
          simp [List.length_take]
        have hl := lastPos1_le (B.take j) (A.getD i 'a')
        have hl' : lastPos1 (B.take j) (A.getD i 'a') ≤ j := by
          refine le_trans hl ?_
          simp [List.length_take]
        simp only [dmatF]
        rw [ih g i (j + 1) (by omega) (by omega),
          ih g (i + 1) j (by omega) (by omega),
          ih g i j (by omega) (by omega),
          ih g (lastPos1 (A.take i) (B.getD j 'a') - 1)
            (lastPos1 (B.take j) (A.getD i 'a') - 1) (by omega) (by omega)]

/-- The EditMatrix recurrence of §4.1, as an unfolding equation for `dmat`. -/
theorem dmat_succ_succ (A B : List Char) (i j : ℕ) :
    dmat A B (i + 1) (j + 1) =
      (let a := A.getD i 'a'
       let b := B.getD j 'a'
       let cost : ℕ := if a = b then 0 else 1
       let base := min (dmat A B i (j + 1) + 1)
         (min (dmat A B (i + 1) j + 1) (dmat A B i j + cost))
       let k := lastPos1 (A.take i) b
       let l := lastPos1 (B.take j) a
       if 1 ≤ k ∧ 1 ≤ l then
         min base (dmat A B (k - 1) (l - 1) + (i - k) + 1 + (j - l))
       else base) := by
  have hk := lastPos1_le (A.take i) (B.getD j 'a')
  have hk' : lastPos1 (A.take i) (B.getD j 'a') ≤ i := by
    refine le_trans hk ?_
    simp [List.length_take]
  have hl := lastPos1_le (B.take j) (A.getD i 'a')
  have hl' : lastPos1 (B.take j) (A.getD i 'a') ≤ j := by
    refine le_trans hl ?_
    simp [List.length_take]
  show dmatF A B ((i + 1) + (j + 1)) (i + 1) (j + 1) = _
  have : (i + 1) + (j + 1) = (i + j + 1) + 1 := by omega
  rw [this]
  simp only [dmatF, dmat]
  rw [dmatF_fuel A B (i + j + 1) (i + (j + 1)) i (j + 1) (by omega) (by omega),
    dmatF_fuel A B (i + j + 1) ((i + 1) + j) (i + 1) j (by omega) (by omega),
    dmatF_fuel A B (i + j + 1) (i + j) i j (by omega) (by omega),
    dmatF_fuel A B (i + j + 1)
      ((lastPos1 (A.take i) (B.getD j 'a') - 1) + (lastPos1 (B.take j) (A.getD i 'a') - 1))
      (lastPos1 (A.take i) (B.getD j 'a') - 1)
      (lastPos1 (B.take j) (A.getD i 'a') - 1) (by omega) (by omega)]

theorem dmat_zero_left (A B : List Char) (j : ℕ) : dmat A B 0 j = j :=
  dmatF_zero_left A B (0 + j) j

theorem dmat_zero_right (A B : List Char) (i : ℕ) : dmat A B i 0 = i := by
  cases i with
  | zero => exact dmatF_zero_left A B 0 0
  | succ i => exact dmatF_zero_right A B (i + 1 + 0) i

/-- The deletion option bounds the cell. -/
theorem dmat_le_del (A B : List Char) (i j : ℕ) :
    dmat A B (i + 1) (j + 1) ≤ dmat A B i (j + 1) + 1 := by
  rw [dmat_succ_succ]
  dsimp only
  split
  · exact le_trans (min_le_left _ _) (min_le_left _ _)
  · exact min_le_left _ _

/-- The insertion option bounds the cell. -/
theorem dmat_le_ins (A B : List Char) (i j : ℕ) :
    dmat A B (i + 1) (j + 1) ≤ dmat A B (i + 1) j + 1 := by
  rw [dmat_succ_succ]
  dsimp only
  split
  · exact le_trans (min_le_left _ _) (le_trans (min_le_right _ _) (min_le_left _ _))
  · exact le_trans (min_le_right _ _) (min_le_left _ _)

/-- The substitution option bounds the cell. -/
theorem dmat_le_sub (A B : List Char) (i j : ℕ) :
    dmat A B (i + 1) (j + 1) ≤
      dmat A B i j + (if A.getD i 'a' = B.getD j 'a' then 0 else 1) := by
  rw [dmat_succ_succ]
  dsimp only
  split
  · exact le_trans (min_le_left _ _) (le_trans (min_le_right _ _) (min_le_right _ _))
  · exact le_trans (min_le_right _ _) (min_le_right _ _)

/-- Every cell of EditMatrix is bounded by `max i j` (replace the overlap,
then insert or delete the difference). -/
theorem dmat_le_max (A B : List Char) :
    ∀ n i j, i + j ≤ n → dmat A B i j ≤ max i j := by
  intro n
  induction n with
  | zero =>
    intro i j h
    have : i = 0 ∧ j = 0 := by omega
    rcases this with ⟨rfl, rfl⟩
    simp [dmat_zero_left]
  | succ n ih =>
    intro i j h
    match i, j with
    | 0, j => simp [dmat_zero_left]
    | i + 1, 0 => simp [dmat_zero_right]
    | i + 1, j + 1 =>
      have h1 := dmat_le_sub A B i j
      have h2 := ih i j (by omega)
      have h3 : (if A.getD i 'a' = B.getD j 'a' then (0 : ℕ) else 1) ≤ 1 := by
        split <;> omega
      have : max (i + 1) (j + 1) = max i j + 1 := by omega
      omega

theorem dmat_self_diag (A : List Char) : ∀ i, dmat A A i i = 0 := by
  intro i
  induction i with
  | zero => simp [dmat_zero_left]
  | succ i ih =>
    have h := dmat_le_sub A A i i
    rw [if_pos rfl, ih] at h
    omega

/-- A zero cell forces equal prefixes: `d[i][j] = 0` only when `i = j` and
`A.take i = B.take j`. -/
theorem dmat_eq_zero (A B : List Char) :
    ∀ n i j, i + j ≤ n → i ≤ A.length → j ≤ B.length →
      dmat A B i j = 0 → i = j ∧ A.take i = B.take j := by
  intro n
  induction n with
  | zero =>
    intro i j h _ _ _
    have : i = 0 ∧ j = 0 := by omega
    rcases this with ⟨rfl, rfl⟩
    simp
  | succ n ih =>
    intro i j h hi hj h0
    match i, j with
    | 0, j =>
      rw [dmat_zero_left] at h0
      simp [h0]
    | i + 1, 0 =>
      rw [dmat_zero_right] at h0
      omega
    | i + 1, j + 1 =>
      rw [dmat_succ_succ] at h0
      dsimp only at h0
      have hbase :
          min (dmat A B i (j + 1) + 1)
            (min (dmat A B (i + 1) j + 1)
              (dmat A B i j + if A.getD i 'a' = B.getD j 'a' then 0 else 1)) = 0 := by
        rcases h0.symm.le.eq_or_gt with h' | h'
        · split at h0
          · rcases min_cases
              (min (dmat A B i (j + 1) + 1)
                (min (dmat A B (i + 1) j + 1)
                  (dmat A B i j + if A.getD i 'a' = B.getD j 'a' then 0 else 1)))
              (dmat A B
                  (lastPos1 (A.take i) (B.getD j 'a') - 1)
                  (lastPos1 (B.take j) (A.getD i 'a') - 1) +
                (i - lastPos1 (A.take i) (B.getD j 'a')) + 1 +
                (j - lastPos1 (B.take j) (A.getD i 'a'))) with ⟨he, _⟩ | ⟨he, hlt⟩
            · omega
            · omega
          · exact h0
        · omega
      have hsub :
          dmat A B i j + (if A.getD i 'a' = B.getD j 'a' then (0 : ℕ) else 1) = 0 := by
        rcases min_cases (dmat A B i (j + 1) + 1)
          (min (dmat A B (i + 1) j + 1)
            (dmat A B i j + if A.getD i 'a' = B.getD j 'a' then 0 else 1)) with
          ⟨he, _⟩ | ⟨he, _⟩
        · omega
        · rcases min_cases (dmat A B (i + 1) j + 1)
            (dmat A B i j + if A.getD i 'a' = B.getD j 'a' then 0 else 1) with
            ⟨he2, _⟩ | ⟨he2, _⟩
          · omega
          · omega
      have hcost : A.getD i 'a' = B.getD j 'a' := by
        by_contra hne
        rw [if_neg hne] at hsub
        omega
      have hdz : dmat A B i j = 0 := by
        rw [if_pos hcost] at hsub
        omega
      obtain ⟨hij, htake⟩ := ih i j (by omega) (by omega) (by omega) hdz
      refine ⟨by omega, ?_⟩
      rw [List.take_succ, List.take_succ, htake]
      have hgi : A[i]? = some (A.getD i 'a') := by
        rw [List.getElem?_eq_getElem (show i < A.length by omega),
          List.getD_eq_getElem _ _ (show i < A.length by omega)]
      have hgj : B[j]? = some (B.getD j 'a') := by
        rw [List.getElem?_eq_getElem (show j < B.length by omega),
          List.getD_eq_getElem _ _ (show j < B.length by omega)]
      rw [hgi, hgj, hcost]

/-- `dlist` vanishes exactly on equal sequences. -/
theorem dlist_eq_zero_iff (A B : List Char) : dlist A B = 0 ↔ A = B := by
  constructor
  · intro h
    obtain ⟨_, htake⟩ :=
      dmat_eq_zero A B (A.length + B.length) A.length B.length le_rfl le_rfl le_rfl h
    rwa [List.take_length, List.take_length] at htake
  · rintro rfl
    exact dmat_self_diag A A.length

/-- The EditMatrix is symmetric: swapping the sequences transposes the
table (the recurrence, the cost and the last-occurrence lookback are all
symmetric). -/
theorem dmat_symm (A B : List Char) :
    ∀ n i j, i + j ≤ n → dmat A B i j = dmat B A j i := by
  intro n
  induction n with
  | zero =>
    intro i j h
    have : i = 0 ∧ j = 0 := by omega
    rcases this with ⟨rfl, rfl⟩
    rw [dmat_zero_left, dmat_zero_left]
  | succ n ih =>
    intro i j h
    match i, j with
    | 0, j => rw [dmat_zero_left, dmat_zero_right]
    | i + 1, 0 => rw [dmat_zero_right, dmat_zero_left]
    | i + 1, j + 1 =>
      have hk' : lastPos1 (A.take i) (B.getD j 'a') ≤ i :=
        le_trans (lastPos1_le _ _) (by simp [List.length_take])
      have hl' : lastPos1 (B.take j) (A.getD i 'a') ≤ j :=
        le_trans (lastPos1_le _ _) (by simp [List.length_take])
      rw [dmat_succ_succ, dmat_succ_succ]
      dsimp only
      rw [ih i (j + 1) (by omega), ih (i + 1) j (by omega), ih i j (by omega),
        ih (lastPos1 (A.take i) (B.getD j 'a') - 1)
          (lastPos1 (B.take j) (A.getD i 'a') - 1) (by omega)]
      have hcost : (if A.getD i 'a' = B.getD j 'a' then (0 : ℕ) else 1) =
          (if B.getD j 'a' = A.getD i 'a' then (0 : ℕ) else 1) := by
        by_cases hab : A.getD i 'a' = B.getD j 'a' <;> simp [hab, eq_comm]
      rw [hcost]
      by_cases h1 : 1 ≤ lastPos1 (List.take i A) (B.getD j 'a') <;>
        by_cases h2 : 1 ≤ lastPos1 (List.take j B) (A.getD i 'a') <;>
          simp only [h1, h2, true_and, false_and, and_true, and_false,
            if_true, if_false, ite_true, ite_false] <;> omega

/-- `damerau_levenshtein` is symmetric on sequences. -/
theorem dlist_symm (A B : List Char) : dlist A B = dlist B A :=
  dmat_symm A B (A.length + B.length) A.length B.length le_rfl

/-- Every interior cell is realized by one of the four recurrence options. -/
theorem dmat_cases (A B : List Char) (i j : ℕ) :
    dmat A B (i + 1) (j + 1) = dmat A B i (j + 1) + 1 ∨
    dmat A B (i + 1) (j + 1) = dmat A B (i + 1) j + 1 ∨
    dmat A B (i + 1) (j + 1) =
      dmat A B i j + (if A.getD i 'a' = B.getD j 'a' then 0 else 1) ∨
    (1 ≤ lastPos1 (A.take i) (B.getD j 'a') ∧
      1 ≤ lastPos1 (B.take j) (A.getD i 'a') ∧
      dmat A B (i + 1) (j + 1) =
        dmat A B (lastPos1 (A.take i) (B.getD j 'a') - 1)
            (lastPos1 (B.take j) (A.getD i 'a') - 1) +
          (i - lastPos1 (A.take i) (B.getD j 'a')) + 1 +
          (j - lastPos1 (B.take j) (A.getD i 'a'))) := by
  rw [dmat_succ_succ]
  dsimp only
  split <;> omega

/-- Cells dominate the length difference of the compared prefixes. -/
theorem dmat_length_lb (A B : List Char) :
    ∀ n i j, i + j ≤ n → i ≤ dmat A B i j + j ∧ j ≤ dmat A B i j + i := by
  intro n
  induction n with
  | zero =>
    intro i j h
    have : i = 0 ∧ j = 0 := by omega
    rcases this with ⟨rfl, rfl⟩
    simp [dmat_zero_left]
  | succ n ih =>
    intro i j h
    match i, j with
    | 0, j => rw [dmat_zero_left]; omega
    | i + 1, 0 => rw [dmat_zero_right]; omega
    | i + 1, j + 1 =>
      have hk' : lastPos1 (A.take i) (B.getD j 'a') ≤ i :=
        le_trans (lastPos1_le _ _) (by simp [List.length_take])
      have hl' : lastPos1 (B.take j) (A.getD i 'a') ≤ j :=
        le_trans (lastPos1_le _ _) (by simp [List.length_take])
      have h1 := ih i (j + 1) (by omega)
      have h2 := ih (i + 1) j (by omega)
      have h3 := ih i j (by omega)
      have h4 := ih (lastPos1 (A.take i) (B.getD j 'a') - 1)
        (lastPos1 (B.take j) (A.getD i 'a') - 1) (by omega)
      have hcost : (if A.getD i 'a' = B.getD j 'a' then (0 : ℕ) else 1) ≤ 1 := by
        split <;> omega
      rcases dmat_cases A B i j with he | he | he | ⟨hk, hl, he⟩ <;> omega

/-- Moving one column right changes a cell by at most `+1`. -/
theorem dmat_row_succ_le (A B : List Char) (i j : ℕ) :
    dmat A B i (j + 1) ≤ dmat A B i j + 1 := by
  cases i with
  | zero => rw [dmat_zero_left, dmat_zero_left]
  | succ i => exact dmat_le_ins A B i j

/-- Moving one row down changes a cell by at most `+1`. -/
theorem dmat_col_succ_le (A B : List Char) (i j : ℕ) :
    dmat A B (i + 1) j ≤ dmat A B i j + 1 := by
  cases j with
  | zero => rw [dmat_zero_right, dmat_zero_right]
  | succ j => exact dmat_le_del A B i j

/-- A step along the diagonal changes a cell by at most `+1`. -/
theorem dmat_diag_succ_le (A B : List Char) (i j : ℕ) :
    dmat A B (i + 1) (j + 1) ≤ dmat A B i j + 1 := by
  have h := dmat_le_sub A B i j
  have hc : (if A.getD i 'a' = B.getD j 'a' then (0 : ℕ) else 1) ≤ 1 := by
    split <;> omega
  omega

/-- Chaining the one-step bounds: a cell is bounded by any cell above-left
of it plus the taxicab distance. -/
theorem dmat_le_of_le (A B : List Char) :
    ∀ n i' j' i j, i' + j' ≤ n → i ≤ i' → j ≤ j' →
      dmat A B i' j' ≤ dmat A B i j + (i' - i) + (j' - j) := by
  intro n
  induction n with
  | zero =>
    intro i' j' i j h hi hj
    have h1 : i' = 0 ∧ j' = 0 := by omega
    have h2 : i = 0 ∧ j = 0 := by omega
    rcases h1 with ⟨rfl, rfl⟩
    rcases h2 with ⟨rfl, rfl⟩
    simp
  | succ n ih =>
    intro i' j' i j h hi hj
    by_cases hii : i = i'
    · by_cases hjj : j = j'
      · subst hii
        subst hjj
        omega
      · have h1 : dmat A B i' j' ≤ dmat A B i' (j' - 1) + 1 := by
          have := dmat_row_succ_le A B i' (j' - 1)
          rw [show j' - 1 + 1 = j' by omega] at this
          exact this
        have h2 := ih i' (j' - 1) i j (by omega) (by omega) (by omega)
        omega
    · have h1 : dmat A B i' j' ≤ dmat A B (i' - 1) j' + 1 := by
        have := dmat_col_succ_le A B (i' - 1) j'
        rw [show i' - 1 + 1 = i' by omega] at this
        exact this
      have h2 := ih (i' - 1) j' i j (by omega) (by omega) hj
      omega

/-- Moving one column LEFT also changes a cell by at most `+1` (dropping the
last symbol of the second sequence costs at most one extra edit). -/
theorem dmat_le_row_succ (A B : List Char) : ∀ i j, dmat A B i j ≤ dmat A B i (j + 1) + 1 := by
  intro i
  induction i with
  | zero =>
    intro j
    rw [dmat_zero_left, dmat_zero_left]
    omega
  | succ i ih =>
    intro j
    cases j with
    | zero =>
      rw [dmat_zero_right, Nat.zero_add]
      have := (dmat_length_lb A B (i + 1 + 1) (i + 1) 1 le_rfl).1
      omega
    | succ j =>
      have hk' : lastPos1 (A.take i) (B.getD (j + 1) 'a') ≤ i :=
        le_trans (lastPos1_le _ _) (by simp [List.length_take])
      have hl' : lastPos1 (B.take (j + 1)) (A.getD i 'a') ≤ j + 1 :=
        le_trans (lastPos1_le _ _) (by simp [List.length_take])
      rcases dmat_cases A B i (j + 1) with he | he | he | ⟨hk, hl, he⟩
      · have h1 := ih (j + 1)
        have h2 := dmat_col_succ_le A B i (j + 1)
        omega
      · omega
      · have h2 := dmat_col_succ_le A B i (j + 1)
        omega
      · have hchain := dmat_le_of_le A B ((i + 1) + (j + 1)) (i + 1) (j + 1)
          (lastPos1 (A.take i) (B.getD (j + 1) 'a'))
          (lastPos1 (B.take (j + 1)) (A.getD i 'a')) le_rfl (by omega) (by omega)
        have hdiag := dmat_diag_succ_le A B
          (lastPos1 (A.take i) (B.getD (j + 1) 'a') - 1)
          (lastPos1 (B.take (j + 1)) (A.getD i 'a') - 1)
        rw [show lastPos1 (A.take i) (B.getD (j + 1) 'a') - 1 + 1 =
            lastPos1 (A.take i) (B.getD (j + 1) 'a') by omega,
          show lastPos1 (B.take (j + 1)) (A.getD i 'a') - 1 + 1 =
            lastPos1 (B.take (j + 1)) (A.getD i 'a') by omega] at hdiag
        omega

/-- Dropping the last `d` symbols of the second sequence costs at most `d`
extra edits. -/
theorem dmat_le_add_right (A B : List Char) :
    ∀ d i j, dmat A B i j ≤ dmat A B i (j + d) + d := by
  intro d
  induction d with
  | zero =>
    intro i j
    simp
  | succ d ih =>
    intro i j
    have h1 := ih i j
    have h2 := dmat_le_row_succ A B i (j + d)
    rw [show j + (d + 1) = j + d + 1 by omega]
    omega

theorem take_eq_of_take_eq {A A' : List Char} {i t : ℕ}
    (h : A.take i = A'.take i) (ht : t ≤ i) : A.take t = A'.take t := by
  calc A.take t = (A.take i).take t := by rw [List.take_take, min_eq_left ht]
    _ = (A'.take i).take t := by rw [h]
    _ = A'.take t := by rw [List.take_take, min_eq_left ht]

theorem getD_eq_of_take_eq {A A' : List Char} {i t : ℕ} (c : Char)
    (h : A.take i = A'.take i) (ht : t < i) : A.getD t c = A'.getD t c := by
  have h1 : A[t]? = A'[t]? := by
    have e1 : (A.take i)[t]? = A[t]? := by rw [List.getElem?_take, if_pos ht]
    have e2 : (A'.take i)[t]? = A'[t]? := by rw [List.getElem?_take, if_pos ht]
    rw [← e1, ← e2, h]
  rw [List.getD_eq_getElem?_getD, List.getD_eq_getElem?_getD, h1]

/-- A cell of EditMatrix depends only on the two prefixes it compares. -/
theorem dmat_congr_take (A B : List Char) :
    ∀ n i j (A' B' : List Char), i + j ≤ n →
      A.take i = A'.take i → B.take j = B'.take j →
      dmat A B i j = dmat A' B' i j := by
  intro n
  induction n with
  | zero =>
    intro i j A' B' h _ _
    have : i = 0 ∧ j = 0 := by omega
    rcases this with ⟨rfl, rfl⟩
    rw [dmat_zero_left, dmat_zero_left]
  | succ n ih =>
    intro i j A' B' h hA hB
    match i, j with
    | 0, j => rw [dmat_zero_left, dmat_zero_left]
    | i + 1, 0 => rw [dmat_zero_right, dmat_zero_right]
    | i + 1, j + 1 =>
      have haD : A.getD i 'a' = A'.getD i 'a' := getD_eq_of_take_eq _ hA (by omega)
      have hbD : B.getD j 'a' = B'.getD j 'a' := getD_eq_of_take_eq _ hB (by omega)
      have hAt : A.take i = A'.take i := take_eq_of_take_eq hA (by omega)
      have hBt : B.take j = B'.take j := take_eq_of_take_eq hB (by omega)
      have hk' : lastPos1 (A'.take i) (B'.getD j 'a') ≤ i :=
        le_trans (lastPos1_le _ _) (by simp [List.length_take])
      have hl' : lastPos1 (B'.take j) (A'.getD i 'a') ≤ j :=
        le_trans (lastPos1_le _ _) (by simp [List.length_take])
      rw [dmat_succ_succ, dmat_succ_succ]
      dsimp only
      rw [haD, hbD, hAt, hBt,
        ih i (j + 1) A' B' (by omega) hAt hB,
        ih (i + 1) j A' B' (by omega) hA hBt,
        ih i j A' B' (by omega) hAt hBt,
        ih (lastPos1 (A'.take i) (B'.getD j 'a') - 1)
          (lastPos1 (B'.take j) (A'.getD i 'a') - 1) A' B' (by omega)
          (take_eq_of_take_eq hA (by omega)) (take_eq_of_take_eq hB (by omega))]

/-- Comparing against `Y.take |X|` is the `(|X|, |X|)` cell of the full
table. -/
theorem dlist_take_right (X Y : List Char) (h : X.length ≤ Y.length) :
    dlist X (Y.take X.length) = dmat X Y X.length X.length := by
  unfold dlist
  have hlen : (Y.take X.length).length = X.length := by
    simp [List.length_take]
    omega
  rw [hlen]
  refine dmat_congr_take X (Y.take X.length) (X.length + X.length)
    X.length X.length X Y le_rfl rfl ?_
  rw [List.take_take, min_self]

/-- Modelled from the spec: the Normalizer (§4.2), `d / max(m, n)` when
`max(m, n) > 0`, else `0`; floating-point scores are modelled as exact
rationals. -/
def normalized_dlist (A B : List Char) : ℚ :=
  if max A.length B.length = 0 then 0
  else (dlist A B : ℚ) / (max A.length B.length : ℚ)

/-- Modelled from the spec: the `normalized_damerau_levenshtein` entry point. -/
def normalized_damerau_levenshtein (A B : String) : ℚ :=
  normalized_dlist A.data B.data

/-- The shorter of the two sequences (ties resolved towards the first), as
chosen by the PartialMatcher (§4.3 step 1). -/
def shortSeq (A B : List Char) : List Char :=
  if A.length ≤ B.length then A else B

/-- The longer of the two sequences (ties resolved towards the second). -/
def longSeq (A B : List Char) : List Char :=
  if A.length ≤ B.length then B else A

/-- The contiguous window `L[s : s+n]` of the longer sequence (§4.3 step 3). -/
def window (L : List Char) (s n : ℕ) : List Char := (L.drop s).take n

/-- Minimum of `f` over the offsets `0..s`. -/
def minOver (f : ℕ → ℕ) : ℕ → ℕ
  | 0 => f 0
  | s + 1 => min (minOver f s) (f (s + 1))

/-- Modelled from the spec: the PartialMatcher (§4.3): the minimum over every
starting offset `s` in `[0, len(long) - len(short)]` of the edit distance
between `short` and `long[s : s+len(short)]`; `0` when the shorter sequence is
empty. -/
def partial_dlist (A B : List Char) : ℕ :=
  if (shortSeq A B).length = 0 then 0
  else
    minOver (fun s => dlist (shortSeq A B) (window (longSeq A B) s (shortSeq A B).length))
      ((longSeq A B).length - (shortSeq A B).length)

/-- Modelled from the spec: the `partial_damerau_levenshtein` entry point. -/
def partial_damerau_levenshtein (A B : String) : ℕ := partial_dlist A.data B.data

/-- Modelled from the spec: the partial-normalized score (§4.3), the partial
distance divided by `len(short)` (`0` if `len(short) == 0`). -/
def partial_normalized_dlist (A B : List Char) : ℚ :=
  if (shortSeq A B).length = 0 then 0
  else (partial_dlist A B : ℚ) / ((shortSeq A B).length : ℚ)

/-- Modelled from the spec: the `partial_normalized_damerau_levenshtein`
entry point. -/
def partial_normalized_damerau_levenshtein (A B : String) : ℚ :=
  partial_normalized_dlist A.data B.data

/-- Modelled from the spec: the `geometric_weighted_damerau_levenshtein`
entry point, `partial_normalized^r * normalized^(1-r)` as a real-valued
weighted geometric mean (real exponentiation `Real.rpow` has `0 ^ 0 = 1`,
the convention the spec fixes). -/
noncomputable def geometric_weighted_damerau_levenshtein
    (A B : String) (r : ℝ) : ℝ :=
  (partial_normalized_damerau_levenshtein A B : ℝ) ^ r *
    (normalized_damerau_levenshtein A B : ℝ) ^ (1 - r)

theorem dlist_le_max (A B : List Char) : dlist A B ≤ max A.length B.length :=
  dmat_le_max A B (A.length + B.length) A.length B.length le_rfl

theorem minOver_le (f : ℕ → ℕ) : ∀ t s, s ≤ t → minOver f t ≤ f s := by
  intro t
  induction t with
  | zero =>
    intro s hs
    have : s = 0 := by omega
    subst this
    exact le_rfl
  | succ t ih =>
    intro s hs
    rcases Nat.lt_or_ge s (t + 1) with h | h
    · exact le_trans (min_le_left _ _) (ih s (by omega))
    · have : s = t + 1 := by omega
      subst this
      exact min_le_right _ _

theorem minOver_exists (f : ℕ → ℕ) : ∀ t, ∃ s, s ≤ t ∧ minOver f t = f s := by
  intro t
  induction t with
  | zero => exact ⟨0, le_rfl, rfl⟩
  | succ t ih =>
    obtain ⟨s, hs, he⟩ := ih
    rcases min_cases (minOver f t) (f (t + 1)) with ⟨hm, _⟩ | ⟨hm, _⟩
    · refine ⟨s, by omega, ?_⟩
      show min (minOver f t) (f (t + 1)) = f s
      rw [hm, he]
    · refine ⟨t + 1, le_rfl, ?_⟩
      show min (minOver f t) (f (t + 1)) = f (t + 1)
      rw [hm]

theorem shortSeq_length (A B : List Char) :
    (shortSeq A B).length = min A.length B.length := by
  unfold shortSeq
  split <;> omega

theorem longSeq_length (A B : List Char) :
    (longSeq A B).length = max A.length B.length := by
  unfold longSeq
  split <;> omega

theorem window_zero_full (L : List Char) : window L 0 L.length = L := by
  simp [window]

/-- On sequences of equal length the partial distance degenerates to the
plain distance: the only window is the whole longer sequence. -/
theorem partial_dlist_eq_of_length_eq (A B : List Char)
    (h : A.length = B.length) : partial_dlist A B = dlist A B := by
  have hle : A.length ≤ B.length := by omega
  simp only [partial_dlist, shortSeq, longSeq, hle, if_true]
  by_cases h0 : A.length = 0
  · rw [if_pos h0]
    have hA : A = [] := List.length_eq_zero.mp h0
    have hB : B = [] := List.length_eq_zero.mp (by omega)
    subst hA
    subst hB
    simp [dlist, dmat_zero_left]
  · rw [if_neg h0]
    have hz : B.length - A.length = 0 := by omega
    rw [hz]
    show dlist A (window B 0 A.length) = dlist A B
    rw [h, window_zero_full]

theorem partial_dlist_symm (A B : List Char) :
    partial_dlist A B = partial_dlist B A := by
  by_cases hAB : A.length ≤ B.length <;> by_cases hBA : B.length ≤ A.length
  · have h : A.length = B.length := by omega
    rw [partial_dlist_eq_of_length_eq A B h,
      partial_dlist_eq_of_length_eq B A (by omega), dlist_symm]
  · simp [partial_dlist, shortSeq, longSeq, hAB, hBA]
  · simp [partial_dlist, shortSeq, longSeq, hAB, hBA]
  · omega

theorem normalized_dlist_symm (A B : List Char) :
    normalized_dlist A B = normalized_dlist B A := by
  unfold normalized_dlist
  rw [dlist_symm A B, Nat.max_comm A.length B.length,
    max_comm (A.length : ℚ) (B.length : ℚ)]

theorem partial_normalized_dlist_symm (A B : List Char) :
    partial_normalized_dlist A B = partial_normalized_dlist B A := by
  unfold partial_normalized_dlist
  rw [partial_dlist_symm A B, shortSeq_length, shortSeq_length,
    Nat.min_comm A.length B.length]

theorem cast_max_length (A B : List Char) :
    ((max A.length B.length : ℕ) : ℚ) = max (A.length : ℚ) (B.length : ℚ) := by
  push_cast
  rfl

theorem normalized_dlist_nonneg (A B : List Char) : 0 ≤ normalized_dlist A B := by
  unfold normalized_dlist
  split
  · exact le_rfl
  · positivity

theorem normalized_dlist_le_one (A B : List Char) : normalized_dlist A B ≤ 1 := by
  unfold normalized_dlist
  split
  · norm_num
  · rename_i h
    have hmax : (0 : ℚ) < max (A.length : ℚ) (B.length : ℚ) := by
      rw [← cast_max_length]
      exact_mod_cast Nat.pos_of_ne_zero h
    rw [div_le_one hmax, ← cast_max_length]
    exact_mod_cast dlist_le_max A B

theorem normalized_dlist_eq_zero_iff (A B : List Char) :
    normalized_dlist A B = 0 ↔ A = B := by
  unfold normalized_dlist
  split
  · rename_i h
    have hA : A = [] := List.length_eq_zero.mp (by omega)
    have hB : B = [] := List.length_eq_zero.mp (by omega)
    subst hA
    subst hB
    simp
  · rename_i h
    have hmax : max (A.length : ℚ) (B.length : ℚ) ≠ 0 := by
      rw [← cast_max_length]
      exact_mod_cast h
    rw [div_eq_zero_iff]
    simp only [hmax, or_false, Nat.cast_eq_zero]
    exact dlist_eq_zero_iff A B

theorem normalized_dlist_eq_one (A B : List Char)
    (h : max A.length B.length ≠ 0) (hd : dlist A B = max A.length B.length) :
    normalized_dlist A B = 1 := by
  unfold normalized_dlist
  rw [if_neg h, hd, cast_max_length]
  have hmax : max (A.length : ℚ) (B.length : ℚ) ≠ 0 := by
    rw [← cast_max_length]
    exact_mod_cast h
  rw [div_self hmax]

/-- The partial distance is bounded by every window's distance. -/
theorem partial_dlist_le (A B : List Char) (s : ℕ)
    (hs : s ≤ (longSeq A B).length - (shortSeq A B).length) :
    partial_dlist A B ≤
      dlist (shortSeq A B) (window (longSeq A B) s (shortSeq A B).length) := by
  unfold partial_dlist
  split
  · exact Nat.zero_le _
  · exact minOver_le _ _ s hs

/-- The partial distance is attained at some window. -/
theorem partial_dlist_attained (A B : List Char)
    (h : (shortSeq A B).length ≠ 0) :
    ∃ s, s ≤ (longSeq A B).length - (shortSeq A B).length ∧
      partial_dlist A B =
        dlist (shortSeq A B) (window (longSeq A B) s (shortSeq A B).length) := by
  unfold partial_dlist
  rw [if_neg h]
  exact minOver_exists _ _

/-- The partial distance exceeds the plain distance by at most the length
difference (take the leftmost window and pay one deletion per dropped
symbol). -/
theorem partial_dlist_le_dlist_add (A B : List Char) :
    partial_dlist A B ≤
      dlist A B + (max A.length B.length - min A.length B.length) := by
  have hXY : dlist (shortSeq A B) (longSeq A B) = dlist A B := by
    unfold shortSeq longSeq
    split
    · rfl
    · exact dlist_symm B A
  have hsl : (shortSeq A B).length = min A.length B.length := shortSeq_length A B
  have hll : (longSeq A B).length = max A.length B.length := longSeq_length A B
  have hlen : (shortSeq A B).length ≤ (longSeq A B).length := by omega
  by_cases h0 : (shortSeq A B).length = 0
  · unfold partial_dlist
    rw [if_pos h0]
    exact Nat.zero_le _
  · have h1 := partial_dlist_le A B 0 (by omega)
    have h2 : window (longSeq A B) 0 (shortSeq A B).length =
        (longSeq A B).take (shortSeq A B).length := by
      simp [window]
    rw [h2] at h1
    have h3 := dlist_take_right (shortSeq A B) (longSeq A B) hlen
    have h4 := dmat_le_add_right (shortSeq A B) (longSeq A B)
      ((longSeq A B).length - (shortSeq A B).length)
      (shortSeq A B).length (shortSeq A B).length
    rw [show (shortSeq A B).length +
        ((longSeq A B).length - (shortSeq A B).length) =
        (longSeq A B).length by omega] at h4
    have h5 : dmat (shortSeq A B) (longSeq A B)
        (shortSeq A B).length (longSeq A B).length =
        dlist (shortSeq A B) (longSeq A B) := rfl
    omega

/-- Modelled from the spec: null propagation (§6) for `damerau_levenshtein`:
a null input in the row gives a null result, otherwise the scalar contract
applies. -/
def damerau_levenshtein_row : Option String → Option String → Option ℕ
  | some a, some b => some (damerau_levenshtein a b)
  | _, _ => none

/-- Modelled from the spec: null propagation (§6) for
`normalized_damerau_levenshtein`. -/
def normalized_damerau_levenshtein_row : Option String → Option String → Option ℚ
  | some a, some b => some (normalized_damerau_levenshtein a b)
  | _, _ => none

/-- Modelled from the spec: null propagation (§6) for
`partial_damerau_levenshtein`. -/
def partial_damerau_levenshtein_row : Option String → Option String → Option ℕ
  | some a, some b => some (partial_damerau_levenshtein a b)
  | _, _ => none

/-- Modelled from the spec: null propagation (§6) for
`partial_normalized_damerau_levenshtein`. -/
def partial_normalized_damerau_levenshtein_row :
    Option String → Option String → Option ℚ
  | some a, some b => some (partial_normalized_damerau_levenshtein a b)
  | _, _ => none

/-- Modelled from the spec: null propagation (§6) for
`geometric_weighted_damerau_levenshtein` (the ratio kwarg is always
present, forwarded unvalidated by the shim). -/
noncomputable def geometric_weighted_damerau_levenshtein_row :
    Option String → Option String → ℝ → Option ℝ
  | some a, some b, r => some (geometric_weighted_damerau_levenshtein a b r)
  | _, _, _ => none

/-- Modelled from the spec: the restricted (optimal-string-alignment)
variant described in §4.1's recurrence without the last-occurrence lookback
(only the adjacent-transposition check `A[i-1]==B[j-2], A[i-2]==B[j-1]` with
`d[i-2][j-2]+1`), which the spec states is NOT sufficient; it is kept only to
witness that it disagrees with the unrestricted distance on `"ca"`/`"abc"`. -/
def osaF (A B : List Char) : ℕ → ℕ → ℕ → ℕ
  | _, 0, j => j
  | _, i + 1, 0 => i + 1
  | 0, _ + 1, _ + 1 => 0
  | f + 1, i + 1, j + 1 =>
    let a := A.getD i 'a'
    let b := B.getD j 'a'
    let cost : ℕ := if a = b then 0 else 1
    let base := min (osaF A B f i (j + 1) + 1)
      (min (osaF A B f (i + 1) j + 1) (osaF A B f i j + cost))
    if 1 ≤ i ∧ 1 ≤ j ∧ A.getD i 'a' = B.getD (j - 1) 'a' ∧
        A.getD (i - 1) 'a' = B.getD j 'a' then
      min base (osaF A B f (i - 1) (j - 1) + 1)
    else base

/-- The restricted (OSA) distance, for the contrast case of §8 only. -/
def osa_dlist (A B : List Char) : ℕ := osaF A B (A.length + B.length) A.length B.length

theorem string_eq_iff_data (a b : String) : a = b ↔ a.data = b.data := by
  constructor
  · intro h
    rw [h]
  · intro h
    cases a
    cases b
    exact congrArg String.mk (by simpa using h)

/-- C1: for every pair of Unicode-scalar sequences, `damerau_levenshtein` is
a non-negative integer which vanishes exactly on equal inputs; in particular
`damerau_levenshtein(A,A) = 0`. -/
theorem damerau_levenshtein_eq_zero_iff_eq (A B : String) :
    0 ≤ damerau_levenshtein A B ∧
    (damerau_levenshtein A B = 0 ↔ A = B) ∧
    damerau_levenshtein A A = 0 := by
  refine ⟨Nat.zero_le _, ?_, (dlist_eq_zero_iff _ _).mpr rfl⟩
  rw [damerau_levenshtein, dlist_eq_zero_iff]
  exact (string_eq_iff_data A B).symm

/-- C2: `normalized_damerau_levenshtein` is `d / max(m,n)` when
`max(m,n) > 0` and `0` when both strings are empty; it always lies in
`[0,1]`, vanishes exactly on equal strings, and equals `1` when `max(m,n)`
edits (a positive number, i.e. the pair is non-empty) are required. -/
theorem normalized_damerau_levenshtein_spec (A B : String) :
    (max A.length B.length ≠ 0 →
      normalized_damerau_levenshtein A B =
        (damerau_levenshtein A B : ℚ) / (max A.length B.length : ℚ)) ∧
    (max A.length B.length = 0 → normalized_damerau_levenshtein A B = 0) ∧
    0 ≤ normalized_damerau_levenshtein A B ∧
    normalized_damerau_levenshtein A B ≤ 1 ∧
    (normalized_damerau_levenshtein A B = 0 ↔ A = B) ∧
    (0 < max A.length B.length →
      damerau_levenshtein A B = max A.length B.length →
      normalized_damerau_levenshtein A B = 1) := by
  have hA : A.length = A.data.length := rfl
  have hB : B.length = B.data.length := rfl
  refine ⟨?_, ?_, normalized_dlist_nonneg _ _, normalized_dlist_le_one _ _, ?_, ?_⟩
  · intro h
    rw [hA, hB] at h
    show normalized_dlist A.data B.data = _
    unfold normalized_dlist
    rw [if_neg h]
    rfl
  · intro h
    rw [hA, hB] at h
    show normalized_dlist A.data B.data = 0
    unfold normalized_dlist
    rw [if_pos h]
  · exact (normalized_dlist_eq_zero_iff A.data B.data).trans
      (string_eq_iff_data A B).symm
  · intro hpos hd
    refine normalized_dlist_eq_one A.data B.data ?_ ?_
    · rw [hA, hB] at hpos
      omega
    · rw [hA, hB] at hd
      exact hd

/-- C3: the partial distance is the minimum over every starting offset
`s ∈ [0, len(long) - len(short)]` of the distance between the shorter
sequence and the window `long[s : s+len(short)]` (zero when the shorter
sequence is empty: a lower bound on all windows that is attained at one),
and the partial-normalized score divides it by `len(short)` (zero when
`len(short) = 0`). -/
theorem partial_damerau_levenshtein_spec (A B : String) :
    (min A.length B.length = 0 → partial_damerau_levenshtein A B = 0) ∧
    (∀ s, s ≤ max A.length B.length - min A.length B.length →
      partial_damerau_levenshtein A B ≤
        dlist (shortSeq A.data B.data)
          (window (longSeq A.data B.data) s (min A.length B.length))) ∧
    (min A.length B.length ≠ 0 →
      ∃ s, s ≤ max A.length B.length - min A.length B.length ∧
        partial_damerau_levenshtein A B =
          dlist (shortSeq A.data B.data)
            (window (longSeq A.data B.data) s (min A.length B.length))) ∧
    (min A.length B.length = 0 →
      partial_normalized_damerau_levenshtein A B = 0) ∧
    (min A.length B.length ≠ 0 →
      partial_normalized_damerau_levenshtein A B =
        (partial_damerau_levenshtein A B : ℚ) / (min A.length B.length : ℚ)) := by
  have hA : A.length = A.data.length := rfl
  have hB : B.length = B.data.length := rfl
  have hmin : (shortSeq A.data B.data).length = min A.length B.length := by
    rw [shortSeq_length, hA, hB]
  have hmax : (longSeq A.data B.data).length = max A.length B.length := by
    rw [longSeq_length, hA, hB]
  refine ⟨?_, ?_, ?_, ?_, ?_⟩
  · intro h
    show partial_dlist A.data B.data = 0
    unfold partial_dlist
    rw [if_pos (by rw [hmin]; exact h)]
  · intro s hs
    have hs' : s ≤ (longSeq A.data B.data).length - (shortSeq A.data B.data).length := by
      rw [hmin, hmax]
      exact hs
    have h := partial_dlist_le A.data B.data s hs'
    rwa [hmin] at h
  · intro h
    obtain ⟨s, hs, he⟩ := partial_dlist_attained A.data B.data (by rw [hmin]; exact h)
    rw [hmin, hmax] at hs
    rw [hmin] at he
    exact ⟨s, hs, he⟩
  · intro h
    show partial_normalized_dlist A.data B.data = 0
    unfold partial_normalized_dlist
    rw [if_pos (by rw [hmin]; exact h)]
  · intro h
    show partial_normalized_dlist A.data B.data = _
    unfold partial_normalized_dlist
    rw [if_neg (by rw [hmin]; exact h), hmin]
    push_cast
    rfl

/-- C5: `damerau_levenshtein` and `normalized_damerau_levenshtein` are
symmetric in their arguments, and so are the two partial variants, since the
shorter/longer roles are chosen by length comparison, not argument order. -/
theorem damerau_levenshtein_symm_all_variants (A B : String) :
    damerau_levenshtein A B = damerau_levenshtein B A ∧
    normalized_damerau_levenshtein A B = normalized_damerau_levenshtein B A ∧
    partial_damerau_levenshtein A B = partial_damerau_levenshtein B A ∧
    partial_normalized_damerau_levenshtein A B =
      partial_normalized_damerau_levenshtein B A :=
  ⟨dlist_symm _ _, normalized_dlist_symm _ _, partial_dlist_symm _ _,
    partial_normalized_dlist_symm _ _⟩

/-- C8: the concrete reference values: `damerau_levenshtein("ca","abc") = 2`
while the restricted (OSA) variant gives `3` on the same pair,
`damerau_levenshtein("kitten","sitting") = 3`, and
`partial_damerau_levenshtein("abc","xabcy") = 0`. -/
theorem damerau_levenshtein_concrete_values :
    damerau_levenshtein "ca" "abc" = 2 ∧
    osa_dlist "ca".data "abc".data = 3 ∧
    damerau_levenshtein "kitten" "sitting" = 3 ∧
    partial_damerau_levenshtein "abc" "xabcy" = 0 :=
  ⟨by decide, by decide, by decide, by decide⟩

/-- C9: for every row, a null in either string input propagates to a null
result at each of the five entry points, with no exception. -/
theorem null_propagation_all_rows (a b : Option String) (r : ℝ)
    (h : a = none ∨ b = none) :
    damerau_levenshtein_row a b = none ∧
    normalized_damerau_levenshtein_row a b = none ∧
    partial_damerau_levenshtein_row a b = none ∧
    partial_normalized_damerau_levenshtein_row a b = none ∧
    geometric_weighted_damerau_levenshtein_row a b r = none := by
  rcases h with rfl | rfl
  · exact ⟨rfl, rfl, rfl, rfl, rfl⟩
  · cases a <;> exact ⟨rfl, rfl, rfl, rfl, rfl⟩

theorem null_propagation_all_rows_witness :
    damerau_levenshtein_row none (some "ab") = none ∧
    normalized_damerau_levenshtein_row none (some "ab") = none ∧
    partial_damerau_levenshtein_row none (some "ab") = none ∧
    partial_normalized_damerau_levenshtein_row none (some "ab") = none ∧
    geometric_weighted_damerau_levenshtein_row none (some "ab") 0 = none :=
  null_propagation_all_rows none (some "ab") 0 (Or.inl rfl)

/-- C4: the geometric blend is `partial_normalized^r * normalized^(1-r)`;
at `r = 0` it equals the normalized score exactly, at `r = 1` the
partial-normalized score exactly, and the model's real power satisfies the
spec's convention `0 ^ 0 = 1` (in the real-valued model no NaN exists). -/
theorem geometric_weighted_damerau_levenshtein_spec (A B : String) :
    (∀ r : ℝ, geometric_weighted_damerau_levenshtein A B r =
      (partial_normalized_damerau_levenshtein A B : ℝ) ^ r *
        (normalized_damerau_levenshtein A B : ℝ) ^ (1 - r)) ∧
    geometric_weighted_damerau_levenshtein A B 0 =
      (normalized_damerau_levenshtein A B : ℝ) ∧
    geometric_weighted_damerau_levenshtein A B 1 =
      (partial_normalized_damerau_levenshtein A B : ℝ) ∧
    (0 : ℝ) ^ (0 : ℝ) = 1 := by
  refine ⟨fun r => rfl, ?_, ?_, Real.rpow_zero 0⟩
  · unfold geometric_weighted_damerau_levenshtein
    rw [Real.rpow_zero, one_mul, sub_zero, Real.rpow_one]
  · unfold geometric_weighted_damerau_levenshtein
    rw [Real.rpow_one, sub_self, Real.rpow_zero, mul_one]

theorem nd_ab_bax : normalized_damerau_levenshtein "ab" "bax" = 2 / 3 := by
  have h1 : dlist "ab".data "bax".data = 2 := by decide
  have h2 : "ab".data.length = 2 := rfl
  have h3 : "bax".data.length = 3 := rfl
  unfold normalized_damerau_levenshtein normalized_dlist
  rw [h1, h2, h3]
  norm_num

theorem pnd_ab_bax : partial_normalized_damerau_levenshtein "ab" "bax" = 1 / 2 := by
  have h1 : partial_dlist "ab".data "bax".data = 1 := by decide
  have h2 : (shortSeq "ab".data "bax".data).length = 2 := by decide
  unfold partial_normalized_damerau_levenshtein partial_normalized_dlist
  rw [h1, h2]
  norm_num

theorem gw_ab_bax_neg4 :
    geometric_weighted_damerau_levenshtein "ab" "bax" (-4) = 512 / 243 := by
  unfold geometric_weighted_damerau_levenshtein
  rw [pnd_ab_bax, nd_ab_bax]
  rw [show ((-4 : ℝ)) = ((-4 : ℤ) : ℝ) by norm_num, Real.rpow_intCast,
    show ((1 : ℝ) - ((-4 : ℤ) : ℝ)) = ((5 : ℕ) : ℝ) by norm_num,
    Real.rpow_natCast]
  push_cast
  norm_num

/-- C10: the geometric-weighted entry point accepts every real ratio (a
non-null row always yields a value, never an error), and an out-of-range
ratio can produce a score outside `[0,1]`. -/
theorem geometric_weighted_ratio_unvalidated :
    (∀ (A B : String) (r : ℝ),
      geometric_weighted_damerau_levenshtein_row (some A) (some B) r =
        some (geometric_weighted_damerau_levenshtein A B r)) ∧
    (∃ r : ℝ, r < 0 ∧
      1 < geometric_weighted_damerau_levenshtein "ab" "bax" r) := by
  refine ⟨fun A B r => rfl, ⟨-4, by norm_num, ?_⟩⟩
  rw [gw_ab_bax_neg4]
  norm_num

/-- Modelled from the spec: a single-unit edit of §4.1's contract — an
insertion, deletion, substitution, or adjacent transposition at any
position. -/
inductive EditStep : List Char → List Char → Prop
  | ins (u v : List Char) (x : Char) : EditStep (u ++ v) (u ++ x :: v)
  | del (u v : List Char) (x : Char) : EditStep (u ++ x :: v) (u ++ v)
  | sub (u v : List Char) (x y : Char) : EditStep (u ++ x :: v) (u ++ y :: v)
  | swap (u v : List Char) (x y : Char) :
      EditStep (u ++ x :: y :: v) (u ++ y :: x :: v)

/-- `StepN n A B`: `B` is reachable from `A` by `n` single-unit edits. -/
inductive StepN : ℕ → List Char → List Char → Prop
  | refl (A : List Char) : StepN 0 A A
  | tail {n : ℕ} {A B C : List Char} :
      StepN n A B → EditStep B C → StepN (n + 1) A C

theorem EditStep.symm {A B : List Char} (h : EditStep A B) : EditStep B A := by
  cases h with
  | ins u v x => exact EditStep.del u v x
  | del u v x => exact EditStep.ins u v x
  | sub u v x y => exact EditStep.sub u v y x
  | swap u v x y => exact EditStep.swap u v y x

theorem StepN.head {n : ℕ} {A B C : List Char}
    (h1 : EditStep A B) (h2 : StepN n B C) : StepN (n + 1) A C := by
  induction h2 with
  | refl B => exact StepN.tail (StepN.refl A) h1
  | tail hs he ih => exact StepN.tail (ih h1) he

theorem StepN.comp {m n : ℕ} {A B C : List Char}
    (h1 : StepN m A B) (h2 : StepN n B C) : StepN (m + n) A C := by
  induction h2 with
  | refl B => exact h1
  | tail hs he ih => exact StepN.tail (ih h1) he

theorem StepN.rev {n : ℕ} {A B : List Char} (h : StepN n A B) : StepN n B A := by
  induction h with
  | refl A => exact StepN.refl A
  | tail hs he ih => exact StepN.head he.symm ih

theorem EditStep.append_left {P Q : List Char} (S : List Char)
    (h : EditStep P Q) : EditStep (S ++ P) (S ++ Q) := by
  cases h with
  | ins u v x =>
    rw [← List.append_assoc, ← List.append_assoc]
    exact EditStep.ins (S ++ u) v x
  | del u v x =>
    rw [← List.append_assoc, ← List.append_assoc]
    exact EditStep.del (S ++ u) v x
  | sub u v x y =>
    rw [← List.append_assoc, ← List.append_assoc]
    exact EditStep.sub (S ++ u) v x y
  | swap u v x y =>
    rw [← List.append_assoc, ← List.append_assoc]
    exact EditStep.swap (S ++ u) v x y

theorem EditStep.append_right {P Q : List Char} (S : List Char)
    (h : EditStep P Q) : EditStep (P ++ S) (Q ++ S) := by
  cases h with
  | ins u v x =>
    rw [List.append_assoc, List.append_assoc]
    exact EditStep.ins u (v ++ S) x
  | del u v x =>
    rw [List.append_assoc, List.append_assoc]
    show EditStep (u ++ x :: (v ++ S)) (u ++ (v ++ S))
    exact EditStep.del u (v ++ S) x
  | sub u v x y =>
    rw [List.append_assoc, List.append_assoc]
    show EditStep (u ++ x :: (v ++ S)) (u ++ y :: (v ++ S))
    exact EditStep.sub u (v ++ S) x y
  | swap u v x y =>
    rw [List.append_assoc, List.append_assoc]
    show EditStep (u ++ x :: y :: (v ++ S)) (u ++ y :: x :: (v ++ S))
    exact EditStep.swap u (v ++ S) x y

theorem StepN.append_suffix {n : ℕ} {P Q : List Char} (S : List Char)
    (h : StepN n P Q) : StepN n (P ++ S) (Q ++ S) := by
  induction h with
  | refl P => exact StepN.refl (P ++ S)
  | tail hs he ih => exact StepN.tail ih (he.append_right S)

theorem StepN.insert_block (P Q : List Char) :
    ∀ M : List Char, StepN M.length (P ++ Q) (P ++ M ++ Q) := by
  intro M
  induction M generalizing P with
  | nil => simpa using StepN.refl (P ++ Q)
  | cons x M ih =>
    have h1 : EditStep (P ++ Q) (P ++ x :: Q) := EditStep.ins P Q x
    have h2 : StepN M.length ((P ++ [x]) ++ Q) ((P ++ [x]) ++ M ++ Q) := ih (P ++ [x])
    have e1 : (P ++ [x]) ++ Q = P ++ x :: Q := by simp
    have e2 : (P ++ [x]) ++ M ++ Q = P ++ (x :: M) ++ Q := by simp
    rw [e1, e2] at h2
    exact StepN.head h1 h2

theorem StepN.delete_block (P Q M : List Char) :
    StepN M.length (P ++ M ++ Q) (P ++ Q) :=
  (StepN.insert_block P Q M).rev

theorem lastPos1_getD (c : Char) :
    ∀ (xs : List Char) (t : ℕ), lastPos1 xs c = t + 1 →
      t < xs.length ∧ xs.getD t 'a' = c := by
  intro xs
  induction xs with
  | nil => intro t h; simp [lastPos1] at h
  | cons x xs ih =>
    intro t h
    rw [lastPos1] at h
    rcases hr : lastPos1 xs c with _ | s
    · rw [hr, if_pos rfl] at h
      split at h
      · rename_i hx
        have ht : t = 0 := by omega
        subst ht
        simp [hx]
      · omega
    · rw [hr] at h
      rw [if_neg (by omega)] at h
      have ht : t = s + 1 := by omega
      subst ht
      obtain ⟨h1, h2⟩ := ih s hr
      refine ⟨by simpa using Nat.succ_lt_succ h1, ?_⟩
      simpa using h2

theorem getD_take (L : List Char) (c : Char) {t n : ℕ} (h : t < n) :
    (L.take n).getD t c = L.getD t c := by
  exact @getD_eq_of_take_eq (L.take n) L n t c
    (by rw [List.take_take, min_self]) h

theorem take_succ_getD (L : List Char) {t : ℕ} (h : t < L.length) :
    L.take (t + 1) = L.take t ++ [L.getD t 'a'] := by
  rw [List.take_succ]
  congr 1
  rw [List.getElem?_eq_getElem h, List.getD_eq_getElem _ _ h]
  rfl

theorem take_split (L : List Char) {a b : ℕ} (h : a ≤ b) :
    L.take b = L.take a ++ (L.drop a).take (b - a) := by
  rw [show b = a + (b - a) by omega, List.take_add]
  congr 2
  omega

/-- Every cell of EditMatrix is realized by an actual edit script between
the corresponding prefixes: the matrix value is achievable, so it never
underestimates the scripted distance. -/
theorem dmat_realizable (A B : List Char) :
    ∀ n i j, i + j ≤ n → i ≤ A.length → j ≤ B.length →
      StepN (dmat A B i j) (A.take i) (B.take j) := by
  intro n
  induction n with
  | zero =>
    intro i j h _ _
    have : i = 0 ∧ j = 0 := by omega
    rcases this with ⟨rfl, rfl⟩
    rw [dmat_zero_left]
    simpa using StepN.refl ([] : List Char)
  | succ n ih =>
    intro i j h hi hj
    match i, j with
    | 0, j =>
      rw [dmat_zero_left]
      have h1 := StepN.insert_block ([] : List Char) [] (B.take j)
      have hlen : (B.take j).length = j := by
        simp [List.length_take]
        omega
      rw [hlen] at h1
      simpa using h1
    | i + 1, 0 =>
      rw [dmat_zero_right]
      have h1 := StepN.delete_block ([] : List Char) [] (A.take (i + 1))
      have hlen : (A.take (i + 1)).length = i + 1 := by
        simp [List.length_take]
        omega
      rw [hlen] at h1
      simpa using h1
    | i + 1, j + 1 =>
      rcases dmat_cases A B i j with he | he | he | ⟨hk, hl, he⟩
      · rw [he]
        have hstep : EditStep (A.take (i + 1)) (A.take i) := by
          rw [take_succ_getD A (show i < A.length by omega)]
          simpa using EditStep.del (A.take i) [] (A.getD i 'a')
        exact StepN.head hstep (ih i (j + 1) (by omega) (by omega) hj)
      · rw [he]
        have hstep : EditStep (B.take j) (B.take (j + 1)) := by
          rw [take_succ_getD B (show j < B.length by omega)]
          simpa using EditStep.ins (B.take j) [] (B.getD j 'a')
        exact StepN.tail (ih (i + 1) j (by omega) hi (by omega)) hstep
      · rw [he]
        have hbase := (ih i j (by omega) (by omega) (by omega)).append_suffix
          [A.getD i 'a']
        by_cases hab : A.getD i 'a' = B.getD j 'a'
        · rw [if_pos hab, Nat.add_zero]
          rw [take_succ_getD A (show i < A.length by omega),
            take_succ_getD B (show j < B.length by omega), ← hab]
          exact hbase
        · rw [if_neg hab]
          rw [take_succ_getD A (show i < A.length by omega),
            take_succ_getD B (show j < B.length by omega)]
          refine StepN.tail hbase ?_
          simpa using EditStep.sub (B.take j) [] (A.getD i 'a') (B.getD j 'a')
      · obtain ⟨t, hk1⟩ : ∃ t, lastPos1 (A.take i) (B.getD j 'a') = t + 1 :=
          ⟨lastPos1 (A.take i) (B.getD j 'a') - 1, by omega⟩
        obtain ⟨s, hl1⟩ : ∃ s, lastPos1 (B.take j) (A.getD i 'a') = s + 1 :=
          ⟨lastPos1 (B.take j) (A.getD i 'a') - 1, by omega⟩
        rw [hk1, hl1] at he
        simp only [Nat.add_sub_cancel] at he
        rw [he]
        obtain ⟨htlt, htD⟩ := lastPos1_getD (B.getD j 'a') (A.take i) t hk1
        obtain ⟨hslt, hsD⟩ := lastPos1_getD (A.getD i 'a') (B.take j) s hl1
        have hti : t < i := by
          simp [List.length_take] at htlt
          omega
        have hsj : s < j := by
          simp [List.length_take] at hslt
          omega
        have htA : A.getD t 'a' = B.getD j 'a' := by
          rw [← getD_take A 'a' hti]
          exact htD
        have hsB : B.getD s 'a' = A.getD i 'a' := by
          rw [← getD_take B 'a' hsj]
          exact hsD
        have hdecA : A.take (i + 1) =
            A.take t ++ [B.getD j 'a'] ++
              ((A.drop (t + 1)).take (i - (t + 1)) ++ [A.getD i 'a']) := by
          rw [take_succ_getD A (show i < A.length by omega),
            take_split A (show t + 1 ≤ i by omega),
            take_succ_getD A (show t < A.length by omega), htA]
          simp [List.append_assoc]
        have hdecB : B.take (j + 1) =
            B.take s ++ [A.getD i 'a'] ++
              ((B.drop (s + 1)).take (j - (s + 1)) ++ [B.getD j 'a']) := by
          rw [take_succ_getD B (show j < B.length by omega),
            take_split B (show s + 1 ≤ j by omega),
            take_succ_getD B (show s < B.length by omega), hsB]
          simp [List.append_assoc]
        have hMlen : ((A.drop (t + 1)).take (i - (t + 1))).length = i - (t + 1) := by
          simp [List.length_take, List.length_drop]
          omega
        have hNlen : ((B.drop (s + 1)).take (j - (s + 1))).length = j - (s + 1) := by
          simp [List.length_take, List.length_drop]
          omega
        have σ1 : StepN (dmat A B t s) (A.take t) (B.take s) :=
          ih t s (by omega) (by omega) (by omega)
        have σ2 := σ1.append_suffix
          ([B.getD j 'a'] ++ ((A.drop (t + 1)).take (i - (t + 1)) ++ [A.getD i 'a']))
        have σ3 := StepN.delete_block (B.take s ++ [B.getD j 'a'])
          [A.getD i 'a'] ((A.drop (t + 1)).take (i - (t + 1)))
        have σ4 : EditStep (B.take s ++ [B.getD j 'a', A.getD i 'a'])
            (B.take s ++ [A.getD i 'a', B.getD j 'a']) := by
          simpa using EditStep.swap (B.take s) [] (B.getD j 'a') (A.getD i 'a')
        have σ5 := StepN.insert_block (B.take s ++ [A.getD i 'a'])
          [B.getD j 'a'] ((B.drop (s + 1)).take (j - (s + 1)))
        simp only [List.append_assoc, List.cons_append, List.singleton_append,
          List.nil_append, List.append_nil] at σ2 σ3 σ4 σ5 hdecA hdecB
        rw [hdecA, hdecB]
        have c1 := σ2.comp σ3
        have c2 := c1.tail σ4
        have c3 := c2.comp σ5
        rw [hMlen] at c3
        rw [hNlen] at c3
        exact c3

/-- Modelled from the spec: the contract of §4.1 and the glossary read
literally — the minimum number of single-unit edits transforming one
sequence into the other. -/
noncomputable def dsem (A B : List Char) : ℕ := sInf {n | StepN n A B}

/-- The full matrix value is realized by an edit script. -/
theorem dlist_realizable (A B : List Char) : StepN (dlist A B) A B := by
  have h := dmat_realizable A B (A.length + B.length) A.length B.length
    le_rfl le_rfl le_rfl
  simpa [List.take_length] using h

theorem stepSet_nonempty (A B : List Char) : {n | StepN n A B}.Nonempty :=
  ⟨dlist A B, dlist_realizable A B⟩

/-- One half of the Lowrance-Wagner correctness statement: the scripted
distance never exceeds the matrix value. -/
theorem dsem_le_dlist (A B : List Char) : dsem A B ≤ dlist A B :=
  Nat.sInf_le (dlist_realizable A B)

theorem dsem_spec (A B : List Char) : StepN (dsem A B) A B :=
  Nat.sInf_mem (stepSet_nonempty A B)

/-- The scripted distance satisfies the triangle inequality (scripts
compose). -/
theorem dsem_triangle (A B C : List Char) : dsem A C ≤ dsem A B + dsem B C :=
  Nat.sInf_le ((dsem_spec A B).comp (dsem_spec B C))

theorem dmat_le_col_succ (A B : List Char) (i j : ℕ) :
    dmat A B i j ≤ dmat A B (i + 1) j + 1 := by
  rw [dmat_symm A B (i + j) i j le_rfl, dmat_symm A B (i + 1 + j) (i + 1) j le_rfl]
  exact dmat_le_row_succ B A j i

/-- Diagonal-aware chaining: a cell is bounded by any cell above-left of it
plus the Chebyshev distance between the two positions. -/
theorem dmat_le_of_le_max (A B : List Char) :
    ∀ n i' j' i j, i' + j' ≤ n → i ≤ i' → j ≤ j' →
      dmat A B i' j' ≤ dmat A B i j + max (i' - i) (j' - j) := by
  intro n
  induction n with
  | zero =>
    intro i' j' i j h hi hj
    have h1 : i' = 0 ∧ j' = 0 := by omega
    have h2 : i = 0 ∧ j = 0 := by omega
    rcases h1 with ⟨rfl, rfl⟩
    rcases h2 with ⟨rfl, rfl⟩
    simp
  | succ n ih =>
    intro i' j' i j h hi hj
    by_cases hii : i = i'
    · subst hii
      have := dmat_le_of_le A B (i + j') i j' i j le_rfl le_rfl hj
      omega
    · by_cases hjj : j = j'
      · subst hjj
        have := dmat_le_of_le A B (i' + j) i' j i j le_rfl hi le_rfl
        omega
      · have h1 : dmat A B i' j' ≤ dmat A B (i' - 1) (j' - 1) + 1 := by
          have := dmat_diag_succ_le A B (i' - 1) (j' - 1)
          rw [show i' - 1 + 1 = i' by omega, show j' - 1 + 1 = j' by omega] at this
          exact this
        have h2 := ih (i' - 1) (j' - 1) i j (by omega) (by omega) (by omega)
        omega

/-- A cell is bounded by its transposition option whenever both lookbacks
hit. -/
theorem dmat_le_trans_option (A B : List Char) (i j : ℕ)
    (hk : 1 ≤ lastPos1 (A.take i) (B.getD j 'a'))
    (hl : 1 ≤ lastPos1 (B.take j) (A.getD i 'a')) :
    dmat A B (i + 1) (j + 1) ≤
      dmat A B (lastPos1 (A.take i) (B.getD j 'a') - 1)
          (lastPos1 (B.take j) (A.getD i 'a') - 1) +
        (i - lastPos1 (A.take i) (B.getD j 'a')) + 1 +
        (j - lastPos1 (B.take j) (A.getD i 'a')) := by
  rw [dmat_succ_succ]
  dsimp only
  rw [if_pos ⟨hk, hl⟩]
  exact min_le_right _ _

theorem take_append_low {u w : List Char} {j : ℕ} (h : j ≤ u.length) :
    (u ++ w).take j = u.take j := by
  rw [List.take_append_eq_append_take, show j - u.length = 0 by omega]
  simp

theorem take_append_high {u w : List Char} {j : ℕ} (h : u.length ≤ j) :
    (u ++ w).take j = u ++ w.take (j - u.length) := by
  rw [List.take_append_eq_append_take]
  congr 1
  exact List.take_of_length_le h

theorem getD_append_low {u w : List Char} {t : ℕ} (c : Char) (h : t < u.length) :
    (u ++ w).getD t c = u.getD t c := by
  rw [List.getD_eq_getElem?_getD, List.getD_eq_getElem?_getD,
    List.getElem?_append, if_pos h]

theorem getD_append_high {u w : List Char} {t : ℕ} (c : Char) (h : u.length ≤ t) :
    (u ++ w).getD t c = w.getD (t - u.length) c := by
  rw [List.getD_eq_getElem?_getD, List.getD_eq_getElem?_getD,
    List.getElem?_append_right h]

theorem lastPos1_append (u w : List Char) (c : Char) :
    lastPos1 (u ++ w) c =
      if lastPos1 w c = 0 then lastPos1 u c else u.length + lastPos1 w c := by
  induction u with
  | nil =>
    simp only [List.nil_append, List.length_nil, Nat.zero_add]
    split
    · rename_i h0
      rw [h0]
      rfl
    · rfl
  | cons x u ih =>
    show (let r := lastPos1 (u ++ w) c
      if r = 0 then (if x = c then 1 else 0) else r + 1) = _
    rw [ih]
    by_cases hw : lastPos1 w c = 0
    · rw [if_pos hw]
      show (if lastPos1 u c = 0 then (if x = c then 1 else 0) else lastPos1 u c + 1) = _
      rw [if_pos hw]
      rfl
    · rw [if_neg hw, if_neg hw]
      have h1 : u.length + lastPos1 w c ≠ 0 := by
        omega
      rw [if_neg h1]
      simp only [List.length_cons]
      omega

theorem lastPos1_take_succ (A : List Char) (c : Char) {t : ℕ} (h : t < A.length) :
    lastPos1 (A.take (t + 1)) c =
      if A.getD t 'a' = c then t + 1 else lastPos1 (A.take t) c := by
  rw [take_succ_getD A h, lastPos1_append]
  have hlen : (A.take t).length = t := by
    simp [List.length_take]
    omega
  have hs : lastPos1 [A.getD t 'a'] c = if A.getD t 'a' = c then 1 else 0 := by
    show (let r := lastPos1 [] c
      if r = 0 then (if A.getD t 'a' = c then 1 else 0) else r + 1) = _
    rfl
  rw [hs]
  by_cases hc : A.getD t 'a' = c
  · rw [if_pos hc, if_neg (by omega), if_pos hc, hlen]
  · rw [if_neg hc, if_pos rfl, if_neg hc]

/-- Anchor dichotomy for the last column of a cell: either that column can
be dropped without increasing the cell, or the cell with the column is
bounded below through the last occurrence (in the row prefix) of the
column's symbol. -/
theorem dmat_anchor (A B : List Char) (q : ℕ) :
    ∀ r, r ≤ A.length →
      dmat A B r q ≤ dmat A B r (q + 1) ∨
      (1 ≤ lastPos1 (A.take r) (B.getD q 'a') ∧
        dmat A B (lastPos1 (A.take r) (B.getD q 'a') - 1) q +
          (r - lastPos1 (A.take r) (B.getD q 'a')) ≤ dmat A B r (q + 1)) := by
  intro r
  induction r with
  | zero =>
    intro _
    left
    rw [dmat_zero_left, dmat_zero_left]
    omega
  | succ t ih =>
    intro hr
    rcases dmat_cases A B t q with he | he | he | ⟨hk, hl, he⟩
    · rcases ih (by omega) with hA | ⟨hk2, hB⟩
      · left
        have := dmat_col_succ_le A B t q
        omega
      · right
        by_cases hx : A.getD t 'a' = B.getD q 'a'
        · rw [lastPos1_take_succ A _ (by omega), if_pos hx]
          refine ⟨by omega, ?_⟩
          simp only [Nat.add_sub_cancel]
          have := dmat_le_row_succ A B t q
          omega
        · rw [lastPos1_take_succ A _ (by omega), if_neg hx]
          exact ⟨hk2, by omega⟩
    · left
      omega
    · by_cases hx : A.getD t 'a' = B.getD q 'a'
      · right
        rw [lastPos1_take_succ A _ (by omega), if_pos hx]
        refine ⟨by omega, ?_⟩
        simp only [Nat.add_sub_cancel]
        rw [if_pos hx] at he
        omega
      · left
        rw [if_neg hx] at he
        have := dmat_col_succ_le A B t q
        omega
    · left
      have hk3 : lastPos1 (A.take t) (B.getD q 'a') ≤ t :=
        le_trans (lastPos1_le _ _) (by simp [List.length_take])
      have hl3 : lastPos1 (B.take q) (A.getD t 'a') ≤ q :=
        le_trans (lastPos1_le _ _) (by simp [List.length_take])
      obtain ⟨hllt, hlD⟩ := lastPos1_getD (A.getD t 'a') (B.take q)
        (lastPos1 (B.take q) (A.getD t 'a') - 1) (by omega)
      have hhit : B.getD (lastPos1 (B.take q) (A.getD t 'a') - 1) 'a' =
          A.getD t 'a' := by
        rw [← getD_take B 'a' (show lastPos1 (B.take q) (A.getD t 'a') - 1 < q by omega)]
        exact hlD
      have c1 := dmat_le_of_le A B ((t + 1) + q) (t + 1) q (t + 1)
        (lastPos1 (B.take q) (A.getD t 'a')) le_rfl le_rfl (by omega)
      have c2 : dmat A B (t + 1) (lastPos1 (B.take q) (A.getD t 'a')) ≤
          dmat A B t (lastPos1 (B.take q) (A.getD t 'a') - 1) := by
        have hsub := dmat_le_sub A B t (lastPos1 (B.take q) (A.getD t 'a') - 1)
        rw [show lastPos1 (B.take q) (A.getD t 'a') - 1 + 1 =
          lastPos1 (B.take q) (A.getD t 'a') by omega] at hsub
        rw [if_pos hhit.symm] at hsub
        omega
      have c3 := dmat_le_of_le A B (t + (lastPos1 (B.take q) (A.getD t 'a') - 1))
        t (lastPos1 (B.take q) (A.getD t 'a') - 1)
        (lastPos1 (A.take t) (B.getD q 'a'))
        (lastPos1 (B.take q) (A.getD t 'a') - 1) le_rfl (by omega) le_rfl
      have c4 : dmat A B (lastPos1 (A.take t) (B.getD q 'a'))
          (lastPos1 (B.take q) (A.getD t 'a') - 1) ≤
          dmat A B (lastPos1 (A.take t) (B.getD q 'a') - 1)
            (lastPos1 (B.take q) (A.getD t 'a') - 1) + 1 := by
        have := dmat_col_succ_le A B (lastPos1 (A.take t) (B.getD q 'a') - 1)
          (lastPos1 (B.take q) (A.getD t 'a') - 1)
        rw [show lastPos1 (A.take t) (B.getD q 'a') - 1 + 1 =
          lastPos1 (A.take t) (B.getD q 'a') by omega] at this
        exact this
      omega

theorem lastPos1_nil (c : Char) : lastPos1 [] c = 0 :=
  rfl

theorem lastPos1_cons (x : Char) (xs : List Char) (c : Char) :
    lastPos1 (x :: xs) c =
      if lastPos1 xs c = 0 then (if x = c then 1 else 0) else lastPos1 xs c + 1 :=
  rfl

/-- Substituting one symbol of the second sequence changes every cell of
EditMatrix by at most one. -/
theorem dmat_sub_lipschitz (A u w : List Char) (x y : Char) :
    ∀ n i j, i + j ≤ n →
      dmat A (u ++ y :: w) i j ≤ dmat A (u ++ x :: w) i j + 1 := by
  have hlow : ∀ j', j' ≤ u.length →
      (u ++ y :: w).take j' = (u ++ x :: w).take j' := by
    intro j' hj'
    rw [take_append_low hj', take_append_low hj']
  have hcong : ∀ i' j', j' ≤ u.length →
      dmat A (u ++ y :: w) i' j' = dmat A (u ++ x :: w) i' j' := by
    intro i' j' hj'
    exact dmat_congr_take A (u ++ y :: w) (i' + j') i' j' A (u ++ x :: w)
      le_rfl rfl (hlow j' hj')
  have hsymx : (u ++ x :: w).getD u.length 'a' = x := by
    rw [getD_append_high _ le_rfl]
    simp
  have hsymy : (u ++ y :: w).getD u.length 'a' = y := by
    rw [getD_append_high _ le_rfl]
    simp
  have hsymhi : ∀ j', u.length < j' →
      (u ++ y :: w).getD j' 'a' = (u ++ x :: w).getD j' 'a' := by
    intro j' hj'
    rw [getD_append_high _ (by omega), getD_append_high _ (by omega)]
    rcases Nat.exists_eq_add_of_lt hj' with ⟨d, rfl⟩
    rw [show u.length + d + 1 - u.length = d + 1 by omega]
    simp
  have htakex : (u ++ x :: w).take u.length = u := by
    rw [take_append_low le_rfl, List.take_length]
  have htakey : (u ++ y :: w).take u.length = u := by
    rw [take_append_low le_rfl, List.take_length]
  have htakexhi : ∀ j', u.length < j' →
      (u ++ x :: w).take j' = u ++ x :: w.take (j' - u.length - 1) := by
    intro j' hj'
    rw [take_append_high (by omega)]
    congr 1
    rw [show j' - u.length = (j' - u.length - 1) + 1 by omega]
    rfl
  have htakeyhi : ∀ j', u.length < j' →
      (u ++ y :: w).take j' = u ++ y :: w.take (j' - u.length - 1) := by
    intro j' hj'
    rw [take_append_high (by omega)]
    congr 1
    rw [show j' - u.length = (j' - u.length - 1) + 1 by omega]
    rfl
  intro n
  induction n with
  | zero =>
    intro i j h
    have : i = 0 ∧ j = 0 := by omega
    rcases this with ⟨rfl, rfl⟩
    rw [dmat_zero_left, dmat_zero_left]
    omega
  | succ n ih =>
    intro i j h
    match i, j with
    | 0, j =>
      rw [dmat_zero_left, dmat_zero_left]
      omega
    | i + 1, 0 =>
      rw [dmat_zero_right, dmat_zero_right]
      omega
    | i + 1, j + 1 =>
      by_cases hxy : x = y
      · subst hxy
        omega
      rcases Nat.lt_trichotomy j u.length with hj | hj | hj
      · rw [hcong (i + 1) (j + 1) (by omega)]
        omega
      · -- boundary column: j = u.length
        subst hj
        rcases dmat_cases A (u ++ x :: w) i u.length with he | he | he | ⟨hk, hl, he⟩
        · have h1 := dmat_le_del A (u ++ y :: w) i u.length
          have h2 := ih i (u.length + 1) (by omega)
          omega
        · have h1 := dmat_le_ins A (u ++ y :: w) i u.length
          have h2 := hcong (i + 1) u.length le_rfl
          omega
        · rw [hsymx] at he
          have h1 := dmat_le_sub A (u ++ y :: w) i u.length
          rw [hsymy] at h1
          have h2 := hcong i u.length le_rfl
          have h3 : (if A.getD i 'a' = y then (0 : ℕ) else 1) ≤ 1 := by
            split <;> omega
          have h4 : (0 : ℕ) ≤ (if A.getD i 'a' = x then (0 : ℕ) else 1) := by
            omega
          omega
        · rw [hsymx] at he hk
          rw [htakex] at he hl
          have hkle : lastPos1 (A.take i) x ≤ i :=
            le_trans (lastPos1_le _ _) (by simp [List.length_take])
          have hlle : lastPos1 u (A.getD i 'a') ≤ u.length :=
            lastPos1_le _ _
          have h1 := dmat_le_sub A (u ++ y :: w) i u.length
          rw [hsymy] at h1
          have h2 := hcong i u.length le_rfl
          have h3 : (if A.getD i 'a' = y then (0 : ℕ) else 1) ≤ 1 := by
            split <;> omega
          have h4 := dmat_le_of_le A (u ++ x :: w) (i + u.length) i u.length
            (lastPos1 (A.take i) x) (lastPos1 u (A.getD i 'a')) le_rfl
            (by omega) (by omega)
          have h5 : dmat A (u ++ x :: w) (lastPos1 (A.take i) x)
              (lastPos1 u (A.getD i 'a')) ≤
              dmat A (u ++ x :: w) (lastPos1 (A.take i) x - 1)
                (lastPos1 u (A.getD i 'a') - 1) + 1 := by
            have := dmat_diag_succ_le A (u ++ x :: w)
              (lastPos1 (A.take i) x - 1) (lastPos1 u (A.getD i 'a') - 1)
            rw [show lastPos1 (A.take i) x - 1 + 1 = lastPos1 (A.take i) x by omega,
              show lastPos1 u (A.getD i 'a') - 1 + 1 =
                lastPos1 u (A.getD i 'a') by omega] at this
            exact this
          omega
      · -- interior column: u.length < j
        have hsymb := hsymhi j hj
        rcases dmat_cases A (u ++ x :: w) i j with he | he | he | ⟨hk, hl, he⟩
        · have h1 := dmat_le_del A (u ++ y :: w) i j
          have h2 := ih i (j + 1) (by omega)
          omega
        · have h1 := dmat_le_ins A (u ++ y :: w) i j
          have h2 := ih (i + 1) j (by omega)
          omega
        · have h1 := dmat_le_sub A (u ++ y :: w) i j
          rw [hsymb] at h1
          have h2 := ih i j (by omega)
          omega
        · rw [← hsymb] at he hk
          have hkle : lastPos1 (A.take i) ((u ++ y :: w).getD j 'a') ≤ i :=
            le_trans (lastPos1_le _ _) (by simp [List.length_take])
          have hlle : lastPos1 ((u ++ x :: w).take j) (A.getD i 'a') ≤ j :=
            le_trans (lastPos1_le _ _) (by simp [List.length_take])
          -- compute both l-lookbacks through the splice
          have hlx : lastPos1 ((u ++ x :: w).take j) (A.getD i 'a') =
              if lastPos1 (w.take (j - u.length - 1)) (A.getD i 'a') = 0 then
                (if lastPos1 u (A.getD i 'a') = 0 then
                  (if x = A.getD i 'a' then u.length + 1 else 0)
                 else (if x = A.getD i 'a' then u.length + 1
                       else lastPos1 u (A.getD i 'a')))
              else u.length + 1 + lastPos1 (w.take (j - u.length - 1)) (A.getD i 'a') := by
            rw [htakexhi j hj, lastPos1_append, lastPos1_cons]
            split_ifs <;> first | contradiction | omega
          have hly : lastPos1 ((u ++ y :: w).take j) (A.getD i 'a') =
              if lastPos1 (w.take (j - u.length - 1)) (A.getD i 'a') = 0 then
                (if lastPos1 u (A.getD i 'a') = 0 then
                  (if y = A.getD i 'a' then u.length + 1 else 0)
                 else (if y = A.getD i 'a' then u.length + 1
                       else lastPos1 u (A.getD i 'a')))
              else u.length + 1 + lastPos1 (w.take (j - u.length - 1)) (A.getD i 'a') := by
            rw [htakeyhi j hj, lastPos1_append, lastPos1_cons]
            split_ifs <;> first | contradiction | omega
          by_cases hrv : lastPos1 (w.take (j - u.length - 1)) (A.getD i 'a') = 0
          · by_cases hx : x = A.getD i 'a'
            · -- a2 = x: max-chain route through (k-1, p)
              have h1 := dmat_le_sub A (u ++ y :: w) i j
              rw [hsymb] at h1
              have h2 := dmat_le_of_le_max A (u ++ y :: w) (i + j) i j
                (lastPos1 (A.take i) ((u ++ y :: w).getD j 'a') - 1) u.length
                le_rfl (by omega) (by omega)
              have h3 := hcong (lastPos1 (A.take i) ((u ++ y :: w).getD j 'a') - 1)
                u.length le_rfl
              have hlval : lastPos1 ((u ++ x :: w).take j) (A.getD i 'a') =
                  u.length + 1 := by
                rw [hlx, if_pos hrv]
                by_cases hru : lastPos1 u (A.getD i 'a') = 0
                · rw [if_pos hru, if_pos hx]
                · rw [if_neg hru, if_pos hx]
              rw [hlval] at he
              rw [Nat.add_sub_cancel] at he
              have hcost : (if A.getD i 'a' = (u ++ x :: w).getD j 'a'
                  then (0 : ℕ) else 1) ≤ 1 := by
                split <;> omega
              omega
            · by_cases hy : y = A.getD i 'a'
              · -- a2 = y: transposition route with the fresh y at p+1
                have hlval : lastPos1 ((u ++ y :: w).take j) (A.getD i 'a') =
                    u.length + 1 := by
                  rw [hly, if_pos hrv]
                  by_cases hru : lastPos1 u (A.getD i 'a') = 0
                  · rw [if_pos hru, if_pos hy]
                  · rw [if_neg hru, if_pos hy]
                have hlxval : lastPos1 ((u ++ x :: w).take j) (A.getD i 'a') =
                    lastPos1 u (A.getD i 'a') := by
                  rw [hlx, if_pos hrv]
                  have hru : lastPos1 u (A.getD i 'a') ≠ 0 := by
                    rw [hlx, if_pos hrv] at hl
                    by_cases hru : lastPos1 u (A.getD i 'a') = 0
                    · rw [if_pos hru, if_neg hx] at hl
                      omega
                    · exact hru
                  rw [if_neg hru, if_neg hx]
                rw [hlxval] at he
                have hru1 : 1 ≤ lastPos1 u (A.getD i 'a') := by
                  rw [hlxval] at hl
                  exact hl
                have hrup : lastPos1 u (A.getD i 'a') ≤ u.length :=
                  lastPos1_le _ _
                have hT := dmat_le_trans_option A (u ++ y :: w) i j hk
                  (by rw [hlval]; omega)
                rw [hlval] at hT
                rw [Nat.add_sub_cancel] at hT
                have h3 := hcong (lastPos1 (A.take i) ((u ++ y :: w).getD j 'a') - 1)
                  u.length le_rfl
                have h4 := dmat_le_of_le A (u ++ x :: w)
                  ((lastPos1 (A.take i) ((u ++ y :: w).getD j 'a') - 1) + u.length)
                  (lastPos1 (A.take i) ((u ++ y :: w).getD j 'a') - 1) u.length
                  (lastPos1 (A.take i) ((u ++ y :: w).getD j 'a') - 1)
                  (lastPos1 u (A.getD i 'a') - 1) le_rfl le_rfl (by omega)
                omega
              · -- a2 differs from both x and y: the lookbacks agree inside u
                have hlval : lastPos1 ((u ++ y :: w).take j) (A.getD i 'a') =
                    lastPos1 u (A.getD i 'a') := by
                  rw [hly, if_pos hrv]
                  have hru : lastPos1 u (A.getD i 'a') ≠ 0 := by
                    rw [hlx, if_pos hrv] at hl
                    by_cases hru : lastPos1 u (A.getD i 'a') = 0
                    · rw [if_pos hru, if_neg hx] at hl
                      omega
                    · exact hru
                  rw [if_neg hru, if_neg hy]
                have hlxval : lastPos1 ((u ++ x :: w).take j) (A.getD i 'a') =
                    lastPos1 u (A.getD i 'a') := by
                  rw [hlx, if_pos hrv]
                  have hru : lastPos1 u (A.getD i 'a') ≠ 0 := by
                    rw [hlx, if_pos hrv] at hl
                    by_cases hru : lastPos1 u (A.getD i 'a') = 0
                    · rw [if_pos hru, if_neg hx] at hl
                      omega
                    · exact hru
                  rw [if_neg hru, if_neg hx]
                rw [hlxval] at he hl
                have hrup : lastPos1 u (A.getD i 'a') ≤ u.length :=
                  lastPos1_le _ _
                have hT := dmat_le_trans_option A (u ++ y :: w) i j hk
                  (by rw [hlval]; omega)
                rw [hlval] at hT
                have h3 := hcong (lastPos1 (A.take i) ((u ++ y :: w).getD j 'a') - 1)
                  (lastPos1 u (A.getD i 'a') - 1) (by omega)
                omega
          · -- the last occurrence sits beyond the splice: both sides shift alike
            have hlval : lastPos1 ((u ++ y :: w).take j) (A.getD i 'a') =
                u.length + 1 + lastPos1 (w.take (j - u.length - 1)) (A.getD i 'a') := by
              rw [hly, if_neg hrv]
            have hlxval : lastPos1 ((u ++ x :: w).take j) (A.getD i 'a') =
                u.length + 1 + lastPos1 (w.take (j - u.length - 1)) (A.getD i 'a') := by
              rw [hlx, if_neg hrv]
            rw [hlxval] at he hl
            have hT := dmat_le_trans_option A (u ++ y :: w) i j hk
              (by rw [hlval]; omega)
            rw [hlval] at hT
            have hih := ih (lastPos1 (A.take i) ((u ++ y :: w).getD j 'a') - 1)
              (u.length + 1 + lastPos1 (w.take (j - u.length - 1)) (A.getD i 'a') - 1)
              (by omega)
            omega

/-- Inserting one symbol into the second sequence: every cell right of the
insertion point (column shifted by one) grows by at most one. -/
theorem dmat_ins_lipschitz (A u v : List Char) (x : Char) :
    ∀ n i j, i + j ≤ n → u.length ≤ j →
      dmat A (u ++ x :: v) i (j + 1) ≤ dmat A (u ++ v) i j + 1 := by
  have hcong : ∀ i' j', j' ≤ u.length →
      dmat A (u ++ x :: v) i' j' = dmat A (u ++ v) i' j' := by
    intro i' j' hj'
    exact dmat_congr_take A (u ++ x :: v) (i' + j') i' j' A (u ++ v)
      le_rfl rfl (by rw [take_append_low hj', take_append_low hj'])
  have hsymb : ∀ j', u.length ≤ j' →
      (u ++ x :: v).getD (j' + 1) 'a' = (u ++ v).getD j' 'a' := by
    intro j' hj'
    rw [getD_append_high _ (by omega), getD_append_high _ hj',
      show j' + 1 - u.length = (j' - u.length) + 1 by omega]
    exact List.getD_cons_succ
  have htakeX : ∀ j', u.length ≤ j' →
      (u ++ x :: v).take (j' + 1) = u ++ x :: v.take (j' - u.length) := by
    intro j' hj'
    rw [take_append_high (by omega : u.length ≤ j' + 1),
      show j' + 1 - u.length = (j' - u.length) + 1 by omega]
    rfl
  intro n
  induction n with
  | zero =>
    intro i j h hp
    have hi : i = 0 := by omega
    subst hi
    rw [dmat_zero_left, dmat_zero_left]
  | succ n ih =>
    intro i j h hp
    match i with
    | 0 =>
      rw [dmat_zero_left, dmat_zero_left]
    | i + 1 =>
      by_cases hjp : j = u.length
      · subst hjp
        have h1 := dmat_le_ins A (u ++ x :: v) i u.length
        have h2 := hcong (i + 1) u.length le_rfl
        omega
      · have hj : u.length < j := by omega
        obtain ⟨j2, rfl⟩ : ∃ j2, j = j2 + 1 := ⟨j - 1, by omega⟩
        have hj2 : u.length ≤ j2 := by omega
        rcases dmat_cases A (u ++ v) i j2 with he | he | he | ⟨hk, hl, he⟩
        · have h1 := dmat_le_del A (u ++ x :: v) i (j2 + 1)
          have h2 := ih i (j2 + 1) (by omega) (by omega)
          omega
        · have h1 := dmat_le_ins A (u ++ x :: v) i (j2 + 1)
          have h2 := ih (i + 1) j2 (by omega) hj2
          omega
        · have h1 := dmat_le_sub A (u ++ x :: v) i (j2 + 1)
          rw [hsymb j2 hj2] at h1
          have h2 := ih i j2 (by omega) hj2
          omega
        · have hkle : lastPos1 (A.take i) ((u ++ v).getD j2 'a') ≤ i :=
            le_trans (lastPos1_le _ _) (by simp [List.length_take])
          have hlle : lastPos1 ((u ++ v).take j2) (A.getD i 'a') ≤ j2 :=
            le_trans (lastPos1_le _ _) (by simp [List.length_take])
          have hlB : lastPos1 ((u ++ v).take j2) (A.getD i 'a') =
              if lastPos1 (v.take (j2 - u.length)) (A.getD i 'a') = 0
              then lastPos1 u (A.getD i 'a')
              else u.length + lastPos1 (v.take (j2 - u.length)) (A.getD i 'a') := by
            rw [take_append_high hj2, lastPos1_append]
          have hlX : lastPos1 ((u ++ x :: v).take (j2 + 1)) (A.getD i 'a') =
              if lastPos1 (v.take (j2 - u.length)) (A.getD i 'a') = 0 then
                (if lastPos1 u (A.getD i 'a') = 0 then
                  (if x = A.getD i 'a' then u.length + 1 else 0)
                 else (if x = A.getD i 'a' then u.length + 1
                       else lastPos1 u (A.getD i 'a')))
              else u.length + 1 + lastPos1 (v.take (j2 - u.length)) (A.getD i 'a') := by
            rw [htakeX j2 hj2, lastPos1_append, lastPos1_cons]
            split_ifs <;> first | contradiction | omega
          rw [hlB] at he hl hlle
          have hkguard : 1 ≤ lastPos1 (A.take i) ((u ++ x :: v).getD (j2 + 1) 'a') := by
            rw [hsymb j2 hj2]
            exact hk
          by_cases hrv : lastPos1 (v.take (j2 - u.length)) (A.getD i 'a') = 0
          · rw [if_pos hrv] at he hl hlle
            have hrule : lastPos1 u (A.getD i 'a') ≤ u.length := lastPos1_le _ _
            by_cases hx : x = A.getD i 'a'
            · have hlXval : lastPos1 ((u ++ x :: v).take (j2 + 1)) (A.getD i 'a') =
                  u.length + 1 := by
                rw [hlX, if_pos hrv]
                by_cases hru : lastPos1 u (A.getD i 'a') = 0
                · rw [if_pos hru, if_pos hx]
                · rw [if_neg hru, if_pos hx]
              have hT := dmat_le_trans_option A (u ++ x :: v) i (j2 + 1) hkguard
                (by rw [hlXval]; omega)
              rw [hsymb j2 hj2, hlXval, Nat.add_sub_cancel] at hT
              have h3 := hcong (lastPos1 (A.take i) ((u ++ v).getD j2 'a') - 1)
                u.length le_rfl
              have h4 := dmat_le_of_le A (u ++ v)
                ((lastPos1 (A.take i) ((u ++ v).getD j2 'a') - 1) + u.length)
                (lastPos1 (A.take i) ((u ++ v).getD j2 'a') - 1) u.length
                (lastPos1 (A.take i) ((u ++ v).getD j2 'a') - 1)
                (lastPos1 u (A.getD i 'a') - 1) le_rfl le_rfl (by omega)
              omega
            · have hru : ¬ lastPos1 u (A.getD i 'a') = 0 := by omega
              have hlXval : lastPos1 ((u ++ x :: v).take (j2 + 1)) (A.getD i 'a') =
                  lastPos1 u (A.getD i 'a') := by
                rw [hlX, if_pos hrv, if_neg hru, if_neg hx]
              have hT := dmat_le_trans_option A (u ++ x :: v) i (j2 + 1) hkguard
                (by rw [hlXval]; omega)
              rw [hsymb j2 hj2, hlXval] at hT
              have h3 := hcong (lastPos1 (A.take i) ((u ++ v).getD j2 'a') - 1)
                (lastPos1 u (A.getD i 'a') - 1) (by omega)
              omega
          · rw [if_neg hrv] at he hl hlle
            have hlXval : lastPos1 ((u ++ x :: v).take (j2 + 1)) (A.getD i 'a') =
                u.length + 1 + lastPos1 (v.take (j2 - u.length)) (A.getD i 'a') := by
              rw [hlX, if_neg hrv]
            have hT := dmat_le_trans_option A (u ++ x :: v) i (j2 + 1) hkguard
              (by rw [hlXval]; omega)
            rw [hsymb j2 hj2, hlXval] at hT
            rw [show u.length + 1 + lastPos1 (v.take (j2 - u.length)) (A.getD i 'a') - 1 =
              (u.length + lastPos1 (v.take (j2 - u.length)) (A.getD i 'a') - 1) + 1
              by omega] at hT
            have hih := ih (lastPos1 (A.take i) ((u ++ v).getD j2 'a') - 1)
              (u.length + lastPos1 (v.take (j2 - u.length)) (A.getD i 'a') - 1)
              (by omega) (by omega)
            omega

/-- Deleting one symbol of the second sequence: every cell right of the
deletion point (column shifted by one) shrinks by at most one. -/
theorem dmat_del_lipschitz (A u v : List Char) (x : Char) :
    ∀ n i j, i + j ≤ n → u.length ≤ j →
      dmat A (u ++ v) i j ≤ dmat A (u ++ x :: v) i (j + 1) + 1 := by
  have hcong : ∀ i' j', j' ≤ u.length →
      dmat A (u ++ x :: v) i' j' = dmat A (u ++ v) i' j' := by
    intro i' j' hj'
    exact dmat_congr_take A (u ++ x :: v) (i' + j') i' j' A (u ++ v)
      le_rfl rfl (by rw [take_append_low hj', take_append_low hj'])
  have hsymb : ∀ j', u.length ≤ j' →
      (u ++ x :: v).getD (j' + 1) 'a' = (u ++ v).getD j' 'a' := by
    intro j' hj'
    rw [getD_append_high _ (by omega), getD_append_high _ hj',
      show j' + 1 - u.length = (j' - u.length) + 1 by omega]
    exact List.getD_cons_succ
  have hsymx : (u ++ x :: v).getD u.length 'a' = x := by
    rw [getD_append_high _ le_rfl]
    simp
  have htakex : (u ++ x :: v).take u.length = u := by
    rw [take_append_low le_rfl, List.take_length]
  have htakeX : ∀ j', u.length ≤ j' →
      (u ++ x :: v).take (j' + 1) = u ++ x :: v.take (j' - u.length) := by
    intro j' hj'
    rw [take_append_high (by omega : u.length ≤ j' + 1),
      show j' + 1 - u.length = (j' - u.length) + 1 by omega]
    rfl
  intro n
  induction n with
  | zero =>
    intro i j h hp
    have hi : i = 0 := by omega
    subst hi
    rw [dmat_zero_left, dmat_zero_left]
    omega
  | succ n ih =>
    intro i j h hp
    match i with
    | 0 =>
      rw [dmat_zero_left, dmat_zero_left]
      omega
    | i + 1 =>
      rcases dmat_cases A (u ++ x :: v) i j with he | he | he | ⟨hk, hl, he⟩
      · have h1 := dmat_le_of_le A (u ++ v) (i + 1 + j) (i + 1) j i j
          le_rfl (by omega) le_rfl
        have h2 := ih i j (by omega) hp
        omega
      · by_cases hjp : j = u.length
        · subst hjp
          have h2 := hcong (i + 1) u.length le_rfl
          omega
        · obtain ⟨j2, rfl⟩ : ∃ j2, j = j2 + 1 := ⟨j - 1, by omega⟩
          have hj2 : u.length ≤ j2 := by omega
          have h1 := dmat_le_ins A (u ++ v) i j2
          have h2 := ih (i + 1) j2 (by omega) hj2
          omega
      · by_cases hjp : j = u.length
        · subst hjp
          have h2 := hcong i u.length le_rfl
          have h1 := dmat_le_of_le A (u ++ v) (i + 1 + u.length) (i + 1) u.length
            i u.length le_rfl (by omega) le_rfl
          have h4 : (0 : ℕ) ≤ (if A.getD i 'a' = (u ++ x :: v).getD u.length 'a'
              then (0 : ℕ) else 1) := by
            omega
          omega
        · obtain ⟨j2, rfl⟩ : ∃ j2, j = j2 + 1 := ⟨j - 1, by omega⟩
          have hj2 : u.length ≤ j2 := by omega
          rw [hsymb j2 hj2] at he
          have h1 := dmat_le_sub A (u ++ v) i j2
          have h2 := ih i j2 (by omega) hj2
          omega
      · by_cases hjp : j = u.length
        · subst hjp
          rw [hsymx] at he hk
          rw [htakex] at he hl
          have hkle : lastPos1 (A.take i) x ≤ i :=
            le_trans (lastPos1_le _ _) (by simp [List.length_take])
          have hrule : lastPos1 u (A.getD i 'a') ≤ u.length := lastPos1_le _ _
          have h3 := hcong (lastPos1 (A.take i) x - 1)
            (lastPos1 u (A.getD i 'a') - 1) (by omega)
          have h4 := dmat_le_of_le A (u ++ v) (i + 1 + u.length) (i + 1) u.length
            (lastPos1 (A.take i) x) (lastPos1 u (A.getD i 'a'))
            le_rfl (by omega) (by omega)
          have h5 : dmat A (u ++ v) (lastPos1 (A.take i) x)
              (lastPos1 u (A.getD i 'a')) ≤
              dmat A (u ++ v) (lastPos1 (A.take i) x - 1)
                (lastPos1 u (A.getD i 'a') - 1) + 1 := by
            have := dmat_diag_succ_le A (u ++ v)
              (lastPos1 (A.take i) x - 1) (lastPos1 u (A.getD i 'a') - 1)
            rw [show lastPos1 (A.take i) x - 1 + 1 = lastPos1 (A.take i) x by omega,
              show lastPos1 u (A.getD i 'a') - 1 + 1 =
                lastPos1 u (A.getD i 'a') by omega] at this
            exact this
          omega
        · obtain ⟨j2, rfl⟩ : ∃ j2, j = j2 + 1 := ⟨j - 1, by omega⟩
          have hj2 : u.length ≤ j2 := by omega
          rw [hsymb j2 hj2] at he hk
          have hkle : lastPos1 (A.take i) ((u ++ v).getD j2 'a') ≤ i :=
            le_trans (lastPos1_le _ _) (by simp [List.length_take])
          have hlle : lastPos1 ((u ++ v).take j2) (A.getD i 'a') ≤ j2 :=
            le_trans (lastPos1_le _ _) (by simp [List.length_take])
          have hlB : lastPos1 ((u ++ v).take j2) (A.getD i 'a') =
              if lastPos1 (v.take (j2 - u.length)) (A.getD i 'a') = 0
              then lastPos1 u (A.getD i 'a')
              else u.length + lastPos1 (v.take (j2 - u.length)) (A.getD i 'a') := by
            rw [take_append_high hj2, lastPos1_append]
          have hlX : lastPos1 ((u ++ x :: v).take (j2 + 1)) (A.getD i 'a') =
              if lastPos1 (v.take (j2 - u.length)) (A.getD i 'a') = 0 then
                (if lastPos1 u (A.getD i 'a') = 0 then
                  (if x = A.getD i 'a' then u.length + 1 else 0)
                 else (if x = A.getD i 'a' then u.length + 1
                       else lastPos1 u (A.getD i 'a')))
              else u.length + 1 + lastPos1 (v.take (j2 - u.length)) (A.getD i 'a') := by
            rw [htakeX j2 hj2, lastPos1_append, lastPos1_cons]
            split_ifs <;> first | contradiction | omega
          rw [hlX] at he hl
          rw [hlB] at hlle
          by_cases hrv : lastPos1 (v.take (j2 - u.length)) (A.getD i 'a') = 0
          · rw [if_pos hrv] at he hl hlle
            have hrule : lastPos1 u (A.getD i 'a') ≤ u.length := lastPos1_le _ _
            by_cases hx : x = A.getD i 'a'
            · -- the deleted symbol was the transposition partner: re-route
              -- through a substitution hit at the last matching row
              have hcollapse : (if lastPos1 u (A.getD i 'a') = 0 then
                  (if x = A.getD i 'a' then u.length + 1 else 0)
                 else (if x = A.getD i 'a' then u.length + 1
                       else lastPos1 u (A.getD i 'a'))) = u.length + 1 := by
                rw [if_pos hx, if_pos hx]
                split <;> rfl
              rw [hcollapse] at he hl
              rw [Nat.add_sub_cancel] at he
              have hc1 := dmat_le_of_le A (u ++ v) (i + 1 + (j2 + 1)) (i + 1) (j2 + 1)
                (lastPos1 (A.take i) ((u ++ v).getD j2 'a')) (j2 + 1)
                le_rfl (by omega) le_rfl
              have hc2 := dmat_le_sub A (u ++ v)
                (lastPos1 (A.take i) ((u ++ v).getD j2 'a') - 1) j2
              rw [show lastPos1 (A.take i) ((u ++ v).getD j2 'a') - 1 + 1 =
                lastPos1 (A.take i) ((u ++ v).getD j2 'a') by omega] at hc2
              obtain ⟨hlt, hgd⟩ := lastPos1_getD ((u ++ v).getD j2 'a') (A.take i)
                (lastPos1 (A.take i) ((u ++ v).getD j2 'a') - 1) (by omega)
              rw [getD_take A 'a' (show lastPos1 (A.take i) ((u ++ v).getD j2 'a') - 1
                < i by omega)] at hgd
              rw [if_pos hgd] at hc2
              have hc3 := dmat_le_of_le A (u ++ v)
                ((lastPos1 (A.take i) ((u ++ v).getD j2 'a') - 1) + j2)
                (lastPos1 (A.take i) ((u ++ v).getD j2 'a') - 1) j2
                (lastPos1 (A.take i) ((u ++ v).getD j2 'a') - 1) u.length
                le_rfl le_rfl hj2
              have hc4 := hcong (lastPos1 (A.take i) ((u ++ v).getD j2 'a') - 1)
                u.length le_rfl
              omega
            · have hru : ¬ lastPos1 u (A.getD i 'a') = 0 := by
                by_cases hru : lastPos1 u (A.getD i 'a') = 0
                · rw [if_pos hru, if_neg hx] at hl
                  omega
                · exact hru
              rw [if_neg hru, if_neg hx] at he hl
              have hT := dmat_le_trans_option A (u ++ v) i j2 hk
                (by rw [hlB, if_pos hrv]; omega)
              rw [hlB] at hT
              rw [if_pos hrv] at hT
              have h3 := hcong (lastPos1 (A.take i) ((u ++ v).getD j2 'a') - 1)
                (lastPos1 u (A.getD i 'a') - 1)
                (by have := lastPos1_le u (A.getD i 'a'); omega)
              omega
          · rw [if_neg hrv] at he hl hlle
            have hT := dmat_le_trans_option A (u ++ v) i j2 hk
              (by rw [hlB, if_neg hrv]; omega)
            rw [hlB] at hT
            rw [if_neg hrv] at hT
            rw [show u.length + 1 + lastPos1 (v.take (j2 - u.length)) (A.getD i 'a') - 1 =
              (u.length + lastPos1 (v.take (j2 - u.length)) (A.getD i 'a') - 1) + 1
              by omega] at he
            have hih := ih (lastPos1 (A.take i) ((u ++ v).getD j2 'a') - 1)
              (u.length + lastPos1 (v.take (j2 - u.length)) (A.getD i 'a') - 1)
              (by omega) (by omega)
            omega

/-- In a swapped pair, a row whose next symbol is the swapped-forward
symbol reaches the column past the swap at the original cell's cost plus
one. -/
theorem dmat_swap_aux (A u v : List Char) (x y : Char) (i : ℕ)
    (hiA : i ≤ A.length) (hy : A.getD i 'a' = y) :
    dmat A (u ++ y :: x :: v) (i + 1) (u.length + 1 + 1) ≤
      dmat A (u ++ x :: y :: v) i (u.length + 1) + 1 := by
  have hcong : ∀ i' j', j' ≤ u.length →
      dmat A (u ++ y :: x :: v) i' j' = dmat A (u ++ x :: y :: v) i' j' := by
    intro i' j' hj'
    exact dmat_congr_take A (u ++ y :: x :: v) (i' + j') i' j' A (u ++ x :: y :: v)
      le_rfl rfl (by rw [take_append_low hj', take_append_low hj'])
  have hsymY : (u ++ y :: x :: v).getD u.length 'a' = y := by
    rw [getD_append_high _ le_rfl, Nat.sub_self]
    rfl
  have hsymX : (u ++ y :: x :: v).getD (u.length + 1) 'a' = x := by
    rw [getD_append_high _ (by omega), show u.length + 1 - u.length = 1 by omega]
    rfl
  have hBx : (u ++ x :: y :: v).getD u.length 'a' = x := by
    rw [getD_append_high _ le_rfl, Nat.sub_self]
    rfl
  have htake1 : (u ++ y :: x :: v).take (u.length + 1) = u ++ [y] := by
    rw [take_append_high (by omega : u.length ≤ u.length + 1),
      show u.length + 1 - u.length = 1 by omega]
    rfl
  have hlyy : lastPos1 (u ++ [y]) y = u.length + 1 := by
    rw [lastPos1_append, lastPos1_cons, lastPos1_nil, if_pos rfl, if_pos rfl,
      if_neg (by omega)]
  rcases dmat_anchor A (u ++ x :: y :: v) u.length i hiA with hA | ⟨hk2, hB⟩
  · have h1 := dmat_le_ins A (u ++ y :: x :: v) i (u.length + 1)
    have h2 := dmat_le_sub A (u ++ y :: x :: v) i u.length
    rw [hsymY, if_pos hy] at h2
    have h3 := hcong i u.length le_rfl
    omega
  · rw [hBx] at hk2 hB
    have hkle : lastPos1 (A.take i) x ≤ i :=
      le_trans (lastPos1_le _ _) (by simp [List.length_take])
    have hT := dmat_le_trans_option A (u ++ y :: x :: v) i (u.length + 1)
      (by rw [hsymX]; exact hk2)
      (by rw [htake1, hy, hlyy]; omega)
    rw [hsymX, htake1, hy, hlyy, Nat.add_sub_cancel] at hT
    have h3 := hcong (lastPos1 (A.take i) x - 1) u.length le_rfl
    omega

/-- Swapping two adjacent symbols of the second sequence changes every cell
of EditMatrix by at most one. -/
theorem dmat_swap_lipschitz (A u v : List Char) (x y : Char) :
    ∀ n i j, i + j ≤ n → i ≤ A.length →
      dmat A (u ++ y :: x :: v) i j ≤ dmat A (u ++ x :: y :: v) i j + 1 := by
  by_cases hxy : x = y
  · subst hxy
    intro n i j _ _
    omega
  have hcong : ∀ i' j', j' ≤ u.length →
      dmat A (u ++ y :: x :: v) i' j' = dmat A (u ++ x :: y :: v) i' j' := by
    intro i' j' hj'
    exact dmat_congr_take A (u ++ y :: x :: v) (i' + j') i' j' A (u ++ x :: y :: v)
      le_rfl rfl (by rw [take_append_low hj', take_append_low hj'])
  have hcol : ∀ i', dmat A (u ++ y :: x :: v) i' (u.length + 1) ≤
      dmat A (u ++ x :: y :: v) i' (u.length + 1) + 1 := by
    intro i'
    have e1 : dmat A (u ++ y :: x :: v) i' (u.length + 1) =
        dmat A (u ++ y :: y :: v) i' (u.length + 1) := by
      refine dmat_congr_take A (u ++ y :: x :: v) (i' + (u.length + 1)) i'
        (u.length + 1) A (u ++ y :: y :: v) le_rfl rfl ?_
      rw [take_append_high (by omega : u.length ≤ u.length + 1),
        take_append_high (by omega : u.length ≤ u.length + 1),
        show u.length + 1 - u.length = 1 by omega]
      rfl
    exact le_trans (le_of_eq e1)
      (dmat_sub_lipschitz A u (y :: v) x y (i' + (u.length + 1)) i' (u.length + 1)
        le_rfl)
  have hsymb : ∀ j', u.length + 1 + 1 ≤ j' →
      (u ++ y :: x :: v).getD j' 'a' = (u ++ x :: y :: v).getD j' 'a' := by
    intro j' hj'
    rw [getD_append_high _ (by omega), getD_append_high _ (by omega),
      show j' - u.length = (j' - u.length - 2) + 2 by omega]
    simp [List.getD_cons_succ]
  have hsymBy : (u ++ x :: y :: v).getD (u.length + 1) 'a' = y := by
    rw [getD_append_high _ (by omega), show u.length + 1 - u.length = 1 by omega]
    rfl
  have hsymBx : (u ++ x :: y :: v).getD u.length 'a' = x := by
    rw [getD_append_high _ le_rfl, Nat.sub_self]
    rfl
  have hsymY : (u ++ y :: x :: v).getD u.length 'a' = y := by
    rw [getD_append_high _ le_rfl, Nat.sub_self]
    rfl
  have hsymX : (u ++ y :: x :: v).getD (u.length + 1) 'a' = x := by
    rw [getD_append_high _ (by omega), show u.length + 1 - u.length = 1 by omega]
    rfl
  have htakeu : (u ++ y :: x :: v).take u.length = u := by
    rw [take_append_low le_rfl, List.take_length]
  have htakeB1 : (u ++ x :: y :: v).take (u.length + 1) = u ++ [x] := by
    rw [take_append_high (by omega : u.length ≤ u.length + 1),
      show u.length + 1 - u.length = 1 by omega]
    rfl
  have htakeB : ∀ j', u.length + 1 + 1 ≤ j' →
      (u ++ x :: y :: v).take j' = u ++ x :: y :: v.take (j' - u.length - 2) := by
    intro j' hj'
    rw [take_append_high (by omega : u.length ≤ j')]
    obtain ⟨d, hd⟩ : ∃ d, j' - u.length = d + 2 := ⟨j' - u.length - 2, by omega⟩
    rw [hd, show d + 2 - 2 = d by omega]
    rfl
  have htakeX : ∀ j', u.length + 1 + 1 ≤ j' →
      (u ++ y :: x :: v).take j' = u ++ y :: x :: v.take (j' - u.length - 2) := by
    intro j' hj'
    rw [take_append_high (by omega : u.length ≤ j')]
    obtain ⟨d, hd⟩ : ∃ d, j' - u.length = d + 2 := ⟨j' - u.length - 2, by omega⟩
    rw [hd, show d + 2 - 2 = d by omega]
    rfl
  intro n
  induction n with
  | zero =>
    intro i j h _
    have : i = 0 ∧ j = 0 := by omega
    rcases this with ⟨rfl, rfl⟩
    rw [dmat_zero_left, dmat_zero_left]
    omega
  | succ n ih =>
    intro i j h hiA
    match i, j with
    | 0, j =>
      rw [dmat_zero_left, dmat_zero_left]
      omega
    | i + 1, 0 =>
      rw [dmat_zero_right, dmat_zero_right]
      omega
    | i + 1, j + 1 =>
      rcases Nat.lt_trichotomy j u.length with hj | hj | hj
      · rw [hcong (i + 1) (j + 1) (by omega)]
        omega
      · subst hj
        exact hcol (i + 1)
      · rcases dmat_cases A (u ++ x :: y :: v) i j with he | he | he | ⟨hk, hl, he⟩
        · have h1 := dmat_le_del A (u ++ y :: x :: v) i j
          have h2 := ih i (j + 1) (by omega) (by omega)
          omega
        · have h1 := dmat_le_ins A (u ++ y :: x :: v) i j
          have h2 := ih (i + 1) j (by omega) hiA
          omega
        · by_cases hj2 : j = u.length + 1
          · subst hj2
            rw [hsymBy] at he
            by_cases hay : A.getD i 'a' = y
            · rw [if_pos hay] at he
              have haux := dmat_swap_aux A u v x y i (by omega) hay
              omega
            · rw [if_neg hay] at he
              have h1 := dmat_le_sub A (u ++ y :: x :: v) i (u.length + 1)
              have hc : (if A.getD i 'a' = (u ++ y :: x :: v).getD (u.length + 1) 'a'
                  then (0 : ℕ) else 1) ≤ 1 := by
                split <;> omega
              have h2 := hcol i
              omega
          · have hjpp : u.length + 1 + 1 ≤ j := by omega
            have h1 := dmat_le_sub A (u ++ y :: x :: v) i j
            rw [hsymb j hjpp] at h1
            have h2 := ih i j (by omega) (by omega)
            omega
        · by_cases hj2 : j = u.length + 1
          · subst hj2
            rw [hsymBy] at he hk
            rw [htakeB1] at he hl
            have hl1 : lastPos1 (u ++ [x]) (A.getD i 'a') =
                if x = A.getD i 'a' then u.length + 1
                else lastPos1 u (A.getD i 'a') := by
              rw [lastPos1_append, lastPos1_cons, lastPos1_nil]
              split_ifs <;> first | contradiction | omega
            rw [hl1] at he hl
            have hkle : lastPos1 (A.take i) y ≤ i :=
              le_trans (lastPos1_le _ _) (by simp [List.length_take])
            by_cases hax : x = A.getD i 'a'
            · rw [if_pos hax] at he hl
              rw [Nat.add_sub_cancel] at he
              have h1 := dmat_le_sub A (u ++ y :: x :: v) i (u.length + 1)
              rw [hsymX, if_pos hax.symm] at h1
              have h2 := dmat_le_of_le A (u ++ y :: x :: v) (i + (u.length + 1)) i
                (u.length + 1) (lastPos1 (A.take i) y) (u.length + 1)
                le_rfl hkle le_rfl
              have h3 := dmat_le_sub A (u ++ y :: x :: v)
                (lastPos1 (A.take i) y - 1) u.length
              rw [show lastPos1 (A.take i) y - 1 + 1 = lastPos1 (A.take i) y
                by omega] at h3
              obtain ⟨hlt, hgd⟩ := lastPos1_getD y (A.take i)
                (lastPos1 (A.take i) y - 1) (by omega)
              rw [getD_take A 'a' (show lastPos1 (A.take i) y - 1 < i by omega)] at hgd
              rw [hsymY, if_pos hgd] at h3
              have h4 := hcong (lastPos1 (A.take i) y - 1) u.length le_rfl
              omega
            · rw [if_neg hax] at he hl
              have hruu : lastPos1 u (A.getD i 'a') ≤ u.length := lastPos1_le _ _
              have h1 := dmat_le_ins A (u ++ y :: x :: v) i (u.length + 1)
              have hT := dmat_le_trans_option A (u ++ y :: x :: v) i u.length
                (by rw [hsymY]; exact hk)
                (by rw [htakeu]; exact hl)
              rw [hsymY, htakeu] at hT
              have h3 := hcong (lastPos1 (A.take i) y - 1)
                (lastPos1 u (A.getD i 'a') - 1) (by omega)
              omega
          · have hjpp : u.length + 1 + 1 ≤ j := by omega
            have hkle : lastPos1 (A.take i) ((u ++ x :: y :: v).getD j 'a') ≤ i :=
              le_trans (lastPos1_le _ _) (by simp [List.length_take])
            have hlle : lastPos1 ((u ++ x :: y :: v).take j) (A.getD i 'a') ≤ j :=
              le_trans (lastPos1_le _ _) (by simp [List.length_take])
            have hlB : lastPos1 ((u ++ x :: y :: v).take j) (A.getD i 'a') =
                if lastPos1 (v.take (j - u.length - 2)) (A.getD i 'a') = 0 then
                  (if y = A.getD i 'a' then u.length + 1 + 1
                   else if x = A.getD i 'a' then u.length + 1
                   else lastPos1 u (A.getD i 'a'))
                else u.length + 1 + 1 +
                  lastPos1 (v.take (j - u.length - 2)) (A.getD i 'a') := by
              rw [htakeB j hjpp, lastPos1_append, lastPos1_cons, lastPos1_cons]
              split_ifs <;> first | contradiction | omega
            have hlX : lastPos1 ((u ++ y :: x :: v).take j) (A.getD i 'a') =
                if lastPos1 (v.take (j - u.length - 2)) (A.getD i 'a') = 0 then
                  (if x = A.getD i 'a' then u.length + 1 + 1
                   else if y = A.getD i 'a' then u.length + 1
                   else lastPos1 u (A.getD i 'a'))
                else u.length + 1 + 1 +
                  lastPos1 (v.take (j - u.length - 2)) (A.getD i 'a') := by
              rw [htakeX j hjpp, lastPos1_append, lastPos1_cons, lastPos1_cons]
              split_ifs <;> first | contradiction | omega
            rw [hlB] at he hl hlle
            have hkg : 1 ≤ lastPos1 (A.take i) ((u ++ y :: x :: v).getD j 'a') := by
              rw [hsymb j hjpp]
              exact hk
            by_cases hrv : lastPos1 (v.take (j - u.length - 2)) (A.getD i 'a') = 0
            · rw [if_pos hrv] at he hl hlle
              by_cases hay : y = A.getD i 'a'
              · rw [if_pos hay] at he hl hlle
                rw [show u.length + 1 + 1 - 1 = u.length + 1 by omega] at he
                have hax : ¬ x = A.getD i 'a' := by
                  intro hc
                  exact hxy (by rw [hc, ← hay])
                have hlXval : lastPos1 ((u ++ y :: x :: v).take j) (A.getD i 'a') =
                    u.length + 1 := by
                  rw [hlX, if_pos hrv, if_neg hax, if_pos hay]
                have hT := dmat_le_trans_option A (u ++ y :: x :: v) i j hkg
                  (by rw [hlXval]; omega)
                rw [hsymb j hjpp, hlXval, Nat.add_sub_cancel] at hT
                rcases dmat_anchor A (u ++ x :: y :: v) u.length
                  (lastPos1 (A.take i) ((u ++ x :: y :: v).getD j 'a') - 1)
                  (by omega) with hA | ⟨hk4, hB4⟩
                · have h3 := hcong
                    (lastPos1 (A.take i) ((u ++ x :: y :: v).getD j 'a') - 1)
                    u.length le_rfl
                  omega
                · rw [hsymBx] at hk4 hB4
                  have hk4le : lastPos1 (A.take
                      (lastPos1 (A.take i) ((u ++ x :: y :: v).getD j 'a') - 1)) x ≤
                      lastPos1 (A.take i) ((u ++ x :: y :: v).getD j 'a') - 1 :=
                    le_trans (lastPos1_le _ _) (by simp [List.length_take])
                  have c1 := dmat_le_of_le A (u ++ y :: x :: v) (i + 1 + (j + 1))
                    (i + 1) (j + 1)
                    (lastPos1 (A.take i) ((u ++ x :: y :: v).getD j 'a')) (j + 1)
                    le_rfl (by omega) le_rfl
                  have c2 := dmat_le_sub A (u ++ y :: x :: v)
                    (lastPos1 (A.take i) ((u ++ x :: y :: v).getD j 'a') - 1) j
                  rw [show lastPos1 (A.take i) ((u ++ x :: y :: v).getD j 'a') - 1 + 1 =
                    lastPos1 (A.take i) ((u ++ x :: y :: v).getD j 'a') by omega] at c2
                  obtain ⟨hlt, hgd⟩ := lastPos1_getD ((u ++ x :: y :: v).getD j 'a')
                    (A.take i)
                    (lastPos1 (A.take i) ((u ++ x :: y :: v).getD j 'a') - 1) (by omega)
                  rw [getD_take A 'a' (show lastPos1 (A.take i)
                    ((u ++ x :: y :: v).getD j 'a') - 1 < i by omega)] at hgd
                  rw [hsymb j hjpp, if_pos hgd] at c2
                  have c3 := dmat_le_of_le A (u ++ y :: x :: v)
                    ((lastPos1 (A.take i) ((u ++ x :: y :: v).getD j 'a') - 1) + j)
                    (lastPos1 (A.take i) ((u ++ x :: y :: v).getD j 'a') - 1) j
                    (lastPos1 (A.take i) ((u ++ x :: y :: v).getD j 'a') - 1)
                    (u.length + 1 + 1) le_rfl le_rfl (by omega)
                  have c4 := dmat_le_of_le A (u ++ y :: x :: v)
                    ((lastPos1 (A.take i) ((u ++ x :: y :: v).getD j 'a') - 1) +
                      (u.length + 1 + 1))
                    (lastPos1 (A.take i) ((u ++ x :: y :: v).getD j 'a') - 1)
                    (u.length + 1 + 1)
                    (lastPos1 (A.take
                      (lastPos1 (A.take i) ((u ++ x :: y :: v).getD j 'a') - 1)) x)
                    (u.length + 1 + 1) le_rfl hk4le le_rfl
                  have c5 := dmat_le_sub A (u ++ y :: x :: v)
                    (lastPos1 (A.take
                      (lastPos1 (A.take i) ((u ++ x :: y :: v).getD j 'a') - 1)) x - 1)
                    (u.length + 1)
                  rw [show lastPos1 (A.take
                      (lastPos1 (A.take i) ((u ++ x :: y :: v).getD j 'a') - 1)) x - 1 + 1 =
                    lastPos1 (A.take
                      (lastPos1 (A.take i) ((u ++ x :: y :: v).getD j 'a') - 1)) x
                    by omega] at c5
                  obtain ⟨hlt4, hgd4⟩ := lastPos1_getD x
                    (A.take (lastPos1 (A.take i) ((u ++ x :: y :: v).getD j 'a') - 1))
                    (lastPos1 (A.take
                      (lastPos1 (A.take i) ((u ++ x :: y :: v).getD j 'a') - 1)) x - 1)
                    (by omega)
                  rw [getD_take A 'a' (show lastPos1 (A.take
                      (lastPos1 (A.take i) ((u ++ x :: y :: v).getD j 'a') - 1)) x - 1 <
                      lastPos1 (A.take i) ((u ++ x :: y :: v).getD j 'a') - 1
                    by omega)] at hgd4
                  rw [hsymX, if_pos hgd4] at c5
                  have c6 := dmat_le_of_le A (u ++ y :: x :: v)
                    ((lastPos1 (A.take
                      (lastPos1 (A.take i) ((u ++ x :: y :: v).getD j 'a') - 1)) x - 1) +
                      (u.length + 1))
                    (lastPos1 (A.take
                      (lastPos1 (A.take i) ((u ++ x :: y :: v).getD j 'a') - 1)) x - 1)
                    (u.length + 1)
                    (lastPos1 (A.take
                      (lastPos1 (A.take i) ((u ++ x :: y :: v).getD j 'a') - 1)) x - 1)
                    u.length le_rfl le_rfl (by omega)
                  have c7 := hcong (lastPos1 (A.take
                      (lastPos1 (A.take i) ((u ++ x :: y :: v).getD j 'a') - 1)) x - 1)
                    u.length le_rfl
                  omega
              · by_cases hax : x = A.getD i 'a'
                · rw [if_neg hay, if_pos hax] at he hl hlle
                  rw [Nat.add_sub_cancel] at he
                  have hlXval : lastPos1 ((u ++ y :: x :: v).take j) (A.getD i 'a') =
                      u.length + 1 + 1 := by
                    rw [hlX, if_pos hrv, if_pos hax]
                  have hT := dmat_le_trans_option A (u ++ y :: x :: v) i j hkg
                    (by rw [hlXval]; omega)
                  rw [hsymb j hjpp, hlXval] at hT
                  rw [show u.length + 1 + 1 - 1 = u.length + 1 by omega] at hT
                  have c1 := dmat_le_of_le A (u ++ y :: x :: v)
                    ((lastPos1 (A.take i) ((u ++ x :: y :: v).getD j 'a') - 1) +
                      (u.length + 1))
                    (lastPos1 (A.take i) ((u ++ x :: y :: v).getD j 'a') - 1)
                    (u.length + 1)
                    (lastPos1 (A.take i) ((u ++ x :: y :: v).getD j 'a') - 1)
                    u.length le_rfl le_rfl (by omega)
                  have c2 := hcong
                    (lastPos1 (A.take i) ((u ++ x :: y :: v).getD j 'a') - 1)
                    u.length le_rfl
                  omega
                · rw [if_neg hay, if_neg hax] at he hl hlle
                  have hruu : lastPos1 u (A.getD i 'a') ≤ u.length := lastPos1_le _ _
                  have hlXval : lastPos1 ((u ++ y :: x :: v).take j) (A.getD i 'a') =
                      lastPos1 u (A.getD i 'a') := by
                    rw [hlX, if_pos hrv, if_neg hax, if_neg hay]
                  have hT := dmat_le_trans_option A (u ++ y :: x :: v) i j hkg
                    (by rw [hlXval]; omega)
                  rw [hsymb j hjpp, hlXval] at hT
                  have c2 := hcong
                    (lastPos1 (A.take i) ((u ++ x :: y :: v).getD j 'a') - 1)
                    (lastPos1 u (A.getD i 'a') - 1) (by omega)
                  omega
            · rw [if_neg hrv] at he hl hlle
              have hlXval : lastPos1 ((u ++ y :: x :: v).take j) (A.getD i 'a') =
                  u.length + 1 + 1 +
                    lastPos1 (v.take (j - u.length - 2)) (A.getD i 'a') := by
                rw [hlX, if_neg hrv]
              have hT := dmat_le_trans_option A (u ++ y :: x :: v) i j hkg
                (by rw [hlXval]; omega)
              rw [hsymb j hjpp, hlXval] at hT
              rw [show u.length + 1 + 1 +
                  lastPos1 (v.take (j - u.length - 2)) (A.getD i 'a') - 1 =
                u.length + 1 + lastPos1 (v.take (j - u.length - 2)) (A.getD i 'a')
                by omega] at hT he
              have hih := ih (lastPos1 (A.take i) ((u ++ x :: y :: v).getD j 'a') - 1)
                (u.length + 1 + lastPos1 (v.take (j - u.length - 2)) (A.getD i 'a'))
                (by omega) (by omega)
              omega

/-- A single edit applied to the second sequence changes the matrix
distance by at most one. -/
theorem dlist_le_step {B C : List Char} (h : EditStep B C) (A : List Char) :
    dlist A C ≤ dlist A B + 1 := by
  cases h with
  | ins u v x =>
    have h1 := dmat_ins_lipschitz A u v x (A.length + (u ++ v).length)
      A.length (u ++ v).length le_rfl (by simp)
    unfold dlist
    rw [show (u ++ x :: v).length = (u ++ v).length + 1 by
      simp only [List.length_append, List.length_cons]
      omega]
    exact h1
  | del u v x =>
    have h1 := dmat_del_lipschitz A u v x (A.length + (u ++ v).length)
      A.length (u ++ v).length le_rfl (by simp)
    unfold dlist
    rw [show (u ++ x :: v).length = (u ++ v).length + 1 by
      simp only [List.length_append, List.length_cons]
      omega]
    exact h1
  | sub u v x y =>
    have h1 := dmat_sub_lipschitz A u v x y (A.length + (u ++ y :: v).length)
      A.length (u ++ y :: v).length le_rfl
    unfold dlist
    rw [show (u ++ x :: v).length = (u ++ y :: v).length by
      simp only [List.length_append, List.length_cons]]
    exact h1
  | swap u v x y =>
    have h1 := dmat_swap_lipschitz A u v x y (A.length + (u ++ y :: x :: v).length)
      A.length (u ++ y :: x :: v).length le_rfl le_rfl
    unfold dlist
    rw [show (u ++ x :: y :: v).length = (u ++ y :: x :: v).length by
      simp only [List.length_append, List.length_cons]]
    exact h1

/-- The matrix value is bounded by the length of any edit script (the other
half of Lowrance-Wagner correctness). -/
theorem dlist_le_stepN : ∀ {n : ℕ} {A B : List Char}, StepN n A B → dlist A B ≤ n := by
  intro n A B h
  induction h with
  | refl A => exact le_of_eq ((dlist_eq_zero_iff A A).mpr rfl)
  | tail hs he ih =>
    exact le_trans (dlist_le_step he _) (by omega)

/-- Lowrance-Wagner correctness: the matrix value equals the minimal number
of single-unit edits (insert, delete, substitute, adjacent transposition). -/
theorem dlist_eq_dsem (A B : List Char) : dlist A B = dsem A B :=
  le_antisymm (dlist_le_stepN (dsem_spec A B)) (dsem_le_dlist A B)

/-- The matrix distance satisfies the triangle inequality. -/
theorem dlist_triangle (A B C : List Char) :
    dlist A C ≤ dlist A B + dlist B C := by
  rw [dlist_eq_dsem A C, dlist_eq_dsem A B, dlist_eq_dsem B C]
  exact dsem_triangle A B C

/-- C7, counterexample: on `"abcd"` and `"abXcd"` (lengths 4 and 5) the
plain distance is 1 (one insertion) but every length-4 window of the longer
string is at distance 2 from `"abcd"`, so the partial distance exceeds the
plain one. -/
theorem partial_le_plain_counterexample :
    "abcd".length ≠ "abXcd".length ∧
    ¬ (partial_damerau_levenshtein "abcd" "abXcd" ≤
        damerau_levenshtein "abcd" "abXcd") := by
  constructor
  · decide
  · decide

/-- C7, amended: on equal lengths the partial and plain distances coincide;
when the lengths differ the claimed inequality `partial ≤ plain` can fail,
and what holds is the bound `partial ≤ plain + (max(m,n) - min(m,n))`. -/
theorem partial_vs_plain_amended (A B : String) :
    (A.length = B.length →
      partial_damerau_levenshtein A B = damerau_levenshtein A B) ∧
    partial_damerau_levenshtein A B ≤
      damerau_levenshtein A B + (max A.length B.length - min A.length B.length) := by
  constructor
  · intro h
    exact partial_dlist_eq_of_length_eq A.data B.data h
  · exact partial_dlist_le_dlist_add A.data B.data

/-- C6: for all strings A, B, C the triangle inequality holds:
damerau_levenshtein(A,C) <= damerau_levenshtein(A,B) + damerau_levenshtein(B,C). -/
theorem damerau_levenshtein_triangle (A B C : String) :
    damerau_levenshtein A C ≤
      damerau_levenshtein A B + damerau_levenshtein B C :=
  dlist_triangle A.data B.data C.data

end Strsim
